import Mathlib

/-!
Verification of the CHOpt star-power optimiser sources against their
specification.  The C++ sources are shallowly embedded: `double` values are
modelled as exact rationals (`ℚ`), machine integers as `ℕ`/`ℤ` (tick positions
are `uint32` values; all arithmetic performed on them in the claims below stays
far from the wrap-around, and where a wrap could matter it is modelled with an
explicit `% 2^32`), and `std::vector` as `List`.  `std::lower_bound` is
embedded as the index of the first element not less than the searched value
(`List.findIdx`), which is exactly the result the C++ binary search is
specified to return on a partitioned range.  `std::stable_sort` is embedded as
insertion sort (`List.insertionSort`), which computes the same list: a stable
sort's output is uniquely determined by the comparator and the input order.
-/

set_option allowUnsafeReducibility true

attribute [semireducible] Rat.add Rat.mul Rat.sub Rat.div Rat.inv Rat.neg Rat.blt

namespace CHOpt

/-- One breakpoint of the `TimeConverter` beat/time table
(`struct BeatTimestamp` used by `optimiser.cpp`). -/
structure BeatTimestamp where
  beat : ℚ
  time : ℚ
deriving DecidableEq, Repr

/-- Modelled from the spec: the constant `MS_PER_MINUTE` is declared in the
missing header `optimiser.hpp`; the spec fixes the default tempo at 120 BPM
with half a second per beat, and `chart.cpp` stores BPM values in milli-BPM
(`DEFAULT_BPM = 120000`), so the minute constant is 60000. -/
def MS_PER_MINUTE : ℚ := 60000

/-- Modelled from the spec: the constant `DEFAULT_BPM` is declared in the
missing header `optimiser.hpp`; `chart.cpp` line 116 uses the same name with
value 120000 (milli-BPM), and the spec's default tempo is 120 BPM. -/
def DEFAULT_BPM : ℚ := 120000

/-- A BPM change event (`struct BPM`): tick position and milli-BPM value. -/
structure BPM where
  position : ℕ
  bpm : ℤ
deriving DecidableEq, Repr

/-- A time signature event (`struct TimeSignature` of `chart.hpp`). -/
structure TimeSignature where
  position : ℕ
  numerator : ℕ
  denominator : ℕ
deriving DecidableEq, Repr

/-- The loop of `TimeConverter::TimeConverter` (`optimiser.cpp` lines 28-40):
starting from `last_tick`, `last_bpm`, `last_time` it pushes one
`BeatTimestamp` per BPM event.  The subtraction `bpm.position - last_tick` is
performed on sorted positions, so the `uint32` subtraction never wraps and is
modelled by rational subtraction. -/
def buildBeatTimestamps (res : ℚ) : List BPM → ℕ → ℚ → ℚ → List BeatTimestamp
  | [], _, _, _ => []
  | b :: rest, lastTick, lastBpm, lastTime =>
    let t := lastTime + (((b.position : ℚ) - (lastTick : ℚ)) * MS_PER_MINUTE) / (res * lastBpm)
    ⟨(b.position : ℚ) / res, t⟩ :: buildBeatTimestamps res rest b.position (b.bpm : ℚ) t

/-- The final value of `last_bpm` after the constructor loop, stored in
`m_last_bpm`. -/
def finalBpm : List BPM → ℚ → ℚ
  | [], lastBpm => lastBpm
  | b :: rest, _ => finalBpm rest (b.bpm : ℚ)

/-- The data of a constructed `TimeConverter`. -/
structure TimeConverterData where
  beat_timestamps : List BeatTimestamp
  last_bpm : ℚ

/-- `TimeConverter::TimeConverter(sync_track, header)`: the table is built
from the sync track's BPM list with `last_tick = 0`, `last_bpm = DEFAULT_BPM`,
`last_time = 0`. -/
def TimeConverterData.make (bpms : List BPM) (resolution : ℕ) : TimeConverterData :=
  { beat_timestamps := buildBeatTimestamps (resolution : ℚ) bpms 0 DEFAULT_BPM 0
  , last_bpm := finalBpm bpms DEFAULT_BPM }

/-- Embedding of `std::lower_bound` over the timestamp table: the index of the
first element whose key is not less than `v` (the library's binary search
returns exactly this position on a range partitioned by the comparator). -/
def lowerBoundIdx (key : BeatTimestamp → ℚ) (v : ℚ) (t : List BeatTimestamp) : ℕ :=
  t.findIdx (fun e => decide (v ≤ key e))

/-- Total indexing helper for the timestamp table. -/
def tget (t : List BeatTimestamp) (i : ℕ) : BeatTimestamp :=
  t.getD i ⟨0, 0⟩

/-- `TimeConverter::beats_to_seconds` (`optimiser.cpp` lines 47-63): find the
lower bound of `beats` among the breakpoints, extrapolate with `m_last_bpm`
past the end, with `DEFAULT_BPM` before the start, and interpolate linearly
in between. -/
def beats_to_seconds (t : List BeatTimestamp) (lastBpm : ℚ) (beats : ℚ) : ℚ :=
  if lowerBoundIdx (fun e => e.beat) beats t = t.length then
    (tget t (t.length - 1)).time
      + ((beats - (tget t (t.length - 1)).beat) * MS_PER_MINUTE) / lastBpm
  else if lowerBoundIdx (fun e => e.beat) beats t = 0 then
    (tget t 0).time - (((tget t 0).beat - beats) * MS_PER_MINUTE) / DEFAULT_BPM
  else
    (tget t (lowerBoundIdx (fun e => e.beat) beats t - 1)).time
      + ((tget t (lowerBoundIdx (fun e => e.beat) beats t)).time
          - (tget t (lowerBoundIdx (fun e => e.beat) beats t - 1)).time)
        * (beats - (tget t (lowerBoundIdx (fun e => e.beat) beats t - 1)).beat)
        / ((tget t (lowerBoundIdx (fun e => e.beat) beats t)).beat
          - (tget t (lowerBoundIdx (fun e => e.beat) beats t - 1)).beat)

/-- `TimeConverter::seconds_to_beats` (`optimiser.cpp` lines 65-82): the
mirror image of `beats_to_seconds`, searching on the time coordinate. -/
def seconds_to_beats (t : List BeatTimestamp) (lastBpm : ℚ) (seconds : ℚ) : ℚ :=
  if lowerBoundIdx (fun e => e.time) seconds t = t.length then
    (tget t (t.length - 1)).beat
      + ((seconds - (tget t (t.length - 1)).time) * lastBpm) / MS_PER_MINUTE
  else if lowerBoundIdx (fun e => e.time) seconds t = 0 then
    (tget t 0).beat - (((tget t 0).time - seconds) * DEFAULT_BPM) / MS_PER_MINUTE
  else
    (tget t (lowerBoundIdx (fun e => e.time) seconds t - 1)).beat
      + ((tget t (lowerBoundIdx (fun e => e.time) seconds t)).beat
          - (tget t (lowerBoundIdx (fun e => e.time) seconds t - 1)).beat)
        * (seconds - (tget t (lowerBoundIdx (fun e => e.time) seconds t - 1)).time)
        / ((tget t (lowerBoundIdx (fun e => e.time) seconds t)).time
          - (tget t (lowerBoundIdx (fun e => e.time) seconds t - 1)).time)

theorem tget_eq_getElem (t : List BeatTimestamp) (i : ℕ) (h : i < t.length) :
    tget t i = t[i] := by
  simp [tget, List.getD_eq_getElem?_getD, List.getElem?_eq_getElem h]

theorem buildBeatTimestamps_length (res : ℚ) (bpms : List BPM) (lt : ℕ) (lb ltime : ℚ) :
    (buildBeatTimestamps res bpms lt lb ltime).length = bpms.length := by
  induction bpms generalizing lt lb ltime with
  | nil => rfl
  | cons b rest ih => simp [buildBeatTimestamps, ih]

theorem buildBeatTimestamps_map_beat (res : ℚ) (bpms : List BPM) (lt : ℕ) (lb ltime : ℚ) :
    (buildBeatTimestamps res bpms lt lb ltime).map (fun e => e.beat)
      = bpms.map (fun b => (b.position : ℚ) / res) := by
  induction bpms generalizing lt lb ltime with
  | nil => rfl
  | cons b rest ih => simp [buildBeatTimestamps, ih]

instance : IsTrans BeatTimestamp (fun a b => a.time < b.time) :=
  ⟨fun _ _ _ h h' => lt_trans h h'⟩

instance : IsTrans BeatTimestamp (fun a b => a.beat < b.beat) :=
  ⟨fun _ _ _ h h' => lt_trans h h'⟩

theorem buildBeatTimestamps_time_chain (res : ℚ) (hres : 0 < res) (bpms : List BPM)
    (hpos : bpms.Pairwise (fun a b => a.position < b.position))
    (hbpm : ∀ b ∈ bpms, 0 < b.bpm) (lt : ℕ) (lb ltime : ℚ) :
    List.Chain' (fun a b => a.time < b.time) (buildBeatTimestamps res bpms lt lb ltime) := by
  induction bpms generalizing lt lb ltime with
  | nil => simp [buildBeatTimestamps]
  | cons b rest ih =>
    have hpos' := (List.pairwise_cons.mp hpos).2
    have hbpos := (List.pairwise_cons.mp hpos).1
    have hbb : (0 : ℚ) < (b.bpm : ℚ) := by
      exact_mod_cast hbpm b (List.mem_cons_self b rest)
    have hbpm' : ∀ x ∈ rest, 0 < x.bpm := fun x hx => hbpm x (List.mem_cons_of_mem _ hx)
    cases rest with
    | nil => simp [buildBeatTimestamps]
    | cons c rest2 =>
      refine List.Chain'.cons ?_ (ih hpos' hbpm' _ _ _)
      have hcb : b.position < c.position := hbpos c (List.mem_cons_self c rest2)
      simp only [buildBeatTimestamps]
      have hnum : (0 : ℚ) < ((c.position : ℚ) - (b.position : ℚ)) * MS_PER_MINUTE := by
        apply mul_pos
        · have : (b.position : ℚ) < (c.position : ℚ) := by exact_mod_cast hcb
          linarith
        · norm_num [MS_PER_MINUTE]
      have hden : (0 : ℚ) < res * (b.bpm : ℚ) := mul_pos hres hbb
      have := div_pos hnum hden
      linarith

theorem buildBeatTimestamps_time_pairwise (res : ℚ) (hres : 0 < res) (bpms : List BPM)
    (hpos : bpms.Pairwise (fun a b => a.position < b.position))
    (hbpm : ∀ b ∈ bpms, 0 < b.bpm) (lt : ℕ) (lb ltime : ℚ) :
    List.Pairwise (fun a b => a.time < b.time) (buildBeatTimestamps res bpms lt lb ltime) :=
  List.chain'_iff_pairwise.mp (buildBeatTimestamps_time_chain res hres bpms hpos hbpm lt lb ltime)

theorem buildBeatTimestamps_beat_pairwise (res : ℚ) (hres : 0 < res) (bpms : List BPM)
    (hpos : bpms.Pairwise (fun a b => a.position < b.position)) (lt : ℕ) (lb ltime : ℚ) :
    List.Pairwise (fun a b => a.beat < b.beat) (buildBeatTimestamps res bpms lt lb ltime) := by
  have hmap := buildBeatTimestamps_map_beat res bpms lt lb ltime
  have : List.Pairwise (fun x y : ℚ => x < y) (bpms.map (fun b => (b.position : ℚ) / res)) := by
    refine List.Pairwise.map _ ?_ hpos
    intro a b hab
    have : (a.position : ℚ) < (b.position : ℚ) := by exact_mod_cast hab
    exact (div_lt_div_iff_of_pos_right hres).mpr this
  have h2 : List.Pairwise (fun x y : ℚ => x < y)
      ((buildBeatTimestamps res bpms lt lb ltime).map (fun e => e.beat)) := by
    rw [hmap]; exact this
  exact (List.pairwise_map.mp h2)

theorem lowerBoundIdx_eq_findIdx (key : BeatTimestamp → ℚ) (v : ℚ) (t : List BeatTimestamp) :
    lowerBoundIdx key v t = t.findIdx (fun e => decide (v ≤ key e)) := rfl

/-- Round-trip of the interpolation tables: on a table that is strictly
increasing in both coordinates, converting a beat value inside the tabulated
range to seconds and back returns it exactly. -/
theorem seconds_to_beats_beats_to_seconds (T : List BeatTimestamp) (lastBpm : ℚ)
    (htime : T.Pairwise (fun a b => a.time < b.time))
    (hne : T ≠ []) (b : ℚ)
    (hlo : (tget T 0).beat ≤ b)
    (hhi : b ≤ (tget T (T.length - 1)).beat) :
    seconds_to_beats T lastBpm (beats_to_seconds T lastBpm b) = b := by
  have hn : 0 < T.length := List.length_pos.mpr hne
  have hlast : T.length - 1 < T.length := by omega
  have hhi' : b ≤ T[T.length - 1].beat := by rwa [tget_eq_getElem T _ hlast] at hhi
  have hlo' : T[0].beat ≤ b := by rwa [tget_eq_getElem T 0 hn] at hlo
  obtain ⟨i, hidef⟩ : ∃ k, lowerBoundIdx (fun e => e.beat) b T = k := ⟨_, rfl⟩
  have hilt : i < T.length := by
    rw [← hidef, lowerBoundIdx_eq_findIdx]
    exact List.findIdx_lt_length.mpr ⟨T[T.length - 1], List.getElem_mem _, by simp [hhi']⟩
  have hchar := (@List.findIdx_eq _ (fun e => decide (b ≤ e.beat)) T i hilt).mp
    (by rw [← lowerBoundIdx_eq_findIdx]; exact hidef)
  have hpi : b ≤ T[i].beat := by simpa using hchar.1
  have hprevall : ∀ j (hj : j < i) (hjl : j < T.length), T[j].beat < b := by
    intro j hj hjl
    have := hchar.2 j hj
    simpa using this
  rcases Nat.eq_zero_or_pos i with hi0 | hipos
  · subst hi0
    have hbeq : b = T[0].beat := le_antisymm hpi hlo'
    have ht : beats_to_seconds T lastBpm b = T[0].time := by
      unfold beats_to_seconds
      rw [hidef, if_neg (by omega), if_pos rfl, tget_eq_getElem T 0 hn, ← hbeq]
      simp
    rw [ht]
    have hj : lowerBoundIdx (fun e => e.time) (T[0].time) T = 0 := by
      rw [lowerBoundIdx_eq_findIdx]
      exact (List.findIdx_eq hn).mpr ⟨by simp, fun j hj => by omega⟩
    unfold seconds_to_beats
    rw [hj, if_neg (by omega), if_pos rfl, tget_eq_getElem T 0 hn]
    simp [hbeq]
  · have hprev : T[i - 1].beat < b := hprevall (i - 1) (by omega) (by omega)
    have hpt : T[i - 1].time < T[i].time :=
      List.pairwise_iff_getElem.mp htime (i - 1) i (by omega) hilt (by omega)
    have hpb : T[i - 1].beat < T[i].beat := lt_of_lt_of_le hprev hpi
    have ht : beats_to_seconds T lastBpm b
        = T[i - 1].time + (T[i].time - T[i - 1].time) * (b - T[i - 1].beat)
            / (T[i].beat - T[i - 1].beat) := by
      unfold beats_to_seconds
      rw [hidef, if_neg (by omega), if_neg (by omega),
        tget_eq_getElem T (i - 1) (by omega), tget_eq_getElem T i hilt]
    set t := T[i - 1].time + (T[i].time - T[i - 1].time) * (b - T[i - 1].beat)
        / (T[i].beat - T[i - 1].beat) with htdef
    have hfrac_pos : (0 : ℚ) < (T[i].time - T[i - 1].time) * (b - T[i - 1].beat)
        / (T[i].beat - T[i - 1].beat) := by
      apply div_pos (mul_pos (by linarith) (by linarith)) (by linarith)
    have h1 : T[i - 1].time < t := by rw [htdef]; linarith
    have h2 : t ≤ T[i].time := by
      have hle : (T[i].time - T[i - 1].time) * (b - T[i - 1].beat)
          / (T[i].beat - T[i - 1].beat) ≤ T[i].time - T[i - 1].time := by
        rw [div_le_iff₀ (by linarith : (0:ℚ) < T[i].beat - T[i - 1].beat)]
        nlinarith
      rw [htdef]; linarith
    have hj : lowerBoundIdx (fun e => e.time) t T = i := by
      rw [lowerBoundIdx_eq_findIdx]
      refine (List.findIdx_eq hilt).mpr ⟨by simp [h2], ?_⟩
      intro j hji
      simp only [decide_eq_false_iff_not, not_le]
      have hle : T[j].time ≤ T[i - 1].time := by
        rcases Nat.lt_or_ge j (i - 1) with hlt | hge
        · exact le_of_lt (List.pairwise_iff_getElem.mp htime j (i - 1) (by omega) (by omega) hlt)
        · have hj_eq : j = i - 1 := by omega
          subst hj_eq
          exact le_refl _
      linarith
    rw [ht]
    unfold seconds_to_beats
    rw [hj, if_neg (by omega), if_neg (by omega),
      tget_eq_getElem T (i - 1) (by omega), tget_eq_getElem T i hilt]
    simp only [htdef]
    have hbne : T[i].beat - T[i - 1].beat ≠ 0 := by linarith
    have htne : T[i].time - T[i - 1].time ≠ 0 := by linarith
    field_simp
    ring

/-- C1: for every `TimeConverter` built from a sync track (sorted, positive
BPM events) and a positive resolution, `seconds_to_beats` after
`beats_to_seconds` reproduces a beat value lying between the first and last
tabulated breakpoint to within 1e-9 (in the exact-rational model the
round-trip is exact; both directions search the table and interpolate
linearly, extrapolating with the last BPM past the end and the default BPM
before the start). -/
theorem c1_time_round_trip (bpms : List BPM) (resolution : ℕ)
    (hpos : bpms.Pairwise (fun a b => a.position < b.position))
    (hbpm : ∀ x ∈ bpms, 0 < x.bpm)
    (hres : 0 < resolution) (b : ℚ)
    (hlo : (tget (TimeConverterData.make bpms resolution).beat_timestamps 0).beat ≤ b)
    (hhi : b ≤ (tget (TimeConverterData.make bpms resolution).beat_timestamps
      ((TimeConverterData.make bpms resolution).beat_timestamps.length - 1)).beat)
    (hne : bpms ≠ []) :
    |seconds_to_beats (TimeConverterData.make bpms resolution).beat_timestamps
        (TimeConverterData.make bpms resolution).last_bpm
        (beats_to_seconds (TimeConverterData.make bpms resolution).beat_timestamps
          (TimeConverterData.make bpms resolution).last_bpm b) - b|
      ≤ 1 / 1000000000 := by
  have hres' : (0:ℚ) < (resolution : ℚ) := by exact_mod_cast hres
  have htime := buildBeatTimestamps_time_pairwise (resolution : ℚ) hres' bpms hpos hbpm
    0 DEFAULT_BPM 0
  have hneT : (TimeConverterData.make bpms resolution).beat_timestamps ≠ [] := by
    simp only [TimeConverterData.make]
    intro h
    apply hne
    have := buildBeatTimestamps_length (resolution : ℚ) bpms 0 DEFAULT_BPM 0
    rw [h] at this
    exact List.eq_nil_of_length_eq_zero this.symm
  rw [seconds_to_beats_beats_to_seconds
    (TimeConverterData.make bpms resolution).beat_timestamps
    (TimeConverterData.make bpms resolution).last_bpm htime hneT b hlo hhi]
  simp

/-- Closed witness for C1 at a concrete sync track and beat value. -/
theorem c1_time_round_trip_witness :
    |seconds_to_beats (TimeConverterData.make [⟨0, 120000⟩, ⟨192, 240000⟩] 192).beat_timestamps
        (TimeConverterData.make [⟨0, 120000⟩, ⟨192, 240000⟩] 192).last_bpm
        (beats_to_seconds
          (TimeConverterData.make [⟨0, 120000⟩, ⟨192, 240000⟩] 192).beat_timestamps
          (TimeConverterData.make [⟨0, 120000⟩, ⟨192, 240000⟩] 192).last_bpm (1/2)) - 1/2|
      ≤ 1 / 1000000000 :=
  c1_time_round_trip [⟨0, 120000⟩, ⟨192, 240000⟩] 192
    (by decide) (by decide) (by decide) (1/2)
    (by norm_num [TimeConverterData.make, buildBeatTimestamps, tget,
      MS_PER_MINUTE, DEFAULT_BPM])
    (by norm_num [TimeConverterData.make, buildBeatTimestamps, tget,
      MS_PER_MINUTE, DEFAULT_BPM])
    (by decide)

/-! The `SyncTrack` constructor (`chart.cpp` lines 113-141): stable-sort the
events by position, walk them keeping the last event of each position, with a
default seeded at tick 0. -/

/-- The default BPM event seeded by `SyncTrack::SyncTrack` (120000 milli-BPM
at tick 0). -/
def bpmDefault : BPM := ⟨0, 120000⟩

/-- The default time signature seeded by `SyncTrack::SyncTrack` (4/4 at
tick 0). -/
def tsDefault : TimeSignature := ⟨0, 4, 4⟩

/-- The deduplication loop of `SyncTrack::SyncTrack`: push the previous event
whenever the next one sits at a different position, so the last event of each
position survives, and always push the final previous event. -/
def keepLastAtPos {α : Type} (key : α → ℕ) : α → List α → List α
  | prev, [] => [prev]
  | prev, p :: rest =>
    if key p ≠ key prev then prev :: keepLastAtPos key p rest
    else keepLastAtPos key p rest

/-- Comparator of the BPM stable sort in `SyncTrack::SyncTrack`. -/
def bpmPosLE (a b : BPM) : Prop := a.position ≤ b.position

instance : DecidableRel bpmPosLE := fun a b => Nat.decLe a.position b.position

/-- Comparator of the time-signature stable sort in `SyncTrack::SyncTrack`. -/
def tsPosLE (a b : TimeSignature) : Prop := a.position ≤ b.position

instance : DecidableRel tsPosLE := fun a b => Nat.decLe a.position b.position

/-- `SyncTrack::SyncTrack`, BPM half: the `m_bpms` member. -/
def syncBpms (bpms : List BPM) : List BPM :=
  keepLastAtPos (fun b => b.position) bpmDefault (List.insertionSort bpmPosLE bpms)

/-- `SyncTrack::SyncTrack`, time-signature half: the `m_time_sigs` member. -/
def syncTimeSigs (time_sigs : List TimeSignature) : List TimeSignature :=
  keepLastAtPos (fun t => t.position) tsDefault (List.insertionSort tsPosLE time_sigs)

theorem keepLastAtPos_ne_nil {α : Type} (key : α → ℕ) (prev : α) (l : List α) :
    keepLastAtPos key prev l ≠ [] := by
  induction l generalizing prev with
  | nil => simp [keepLastAtPos]
  | cons p rest ih =>
    simp only [keepLastAtPos]
    split
    · simp
    · exact ih p

theorem keepLastAtPos_mem_self {α : Type} (key : α → ℕ) (prev : α) (l : List α)
    (h : ∀ x ∈ l, key x ≠ key prev) : prev ∈ keepLastAtPos key prev l := by
  cases l with
  | nil => simp [keepLastAtPos]
  | cons p rest =>
    simp only [keepLastAtPos]
    rw [if_pos (h p (List.mem_cons_self p rest))]
    exact List.mem_cons_self _ _

/-- C10: the `SyncTrack` constructor always produces non-empty `bpms()` and
`time_sigs()`; when no input event sits at tick 0 the default 120 BPM entry
and the default 4/4 time signature at tick 0 are inserted; and consequently
the `TimeConverter` constructor's asserted invariant — a non-empty
beat-timestamp table — holds for every `SyncTrack` input. -/
theorem c10_sync_track_defaults (time_sigs : List TimeSignature) (bpms : List BPM)
    (resolution : ℕ) :
    syncBpms bpms ≠ [] ∧ syncTimeSigs time_sigs ≠ [] ∧
    ((∀ x ∈ bpms, x.position ≠ 0) → bpmDefault ∈ syncBpms bpms) ∧
    ((∀ x ∈ time_sigs, x.position ≠ 0) → tsDefault ∈ syncTimeSigs time_sigs) ∧
    (TimeConverterData.make (syncBpms bpms) resolution).beat_timestamps ≠ [] := by
  refine ⟨keepLastAtPos_ne_nil _ _ _, keepLastAtPos_ne_nil _ _ _, ?_, ?_, ?_⟩
  · intro h
    apply keepLastAtPos_mem_self
    intro x hx
    exact h x ((List.perm_insertionSort bpmPosLE bpms).mem_iff.mp hx)
  · intro h
    apply keepLastAtPos_mem_self
    intro x hx
    exact h x ((List.perm_insertionSort tsPosLE time_sigs).mem_iff.mp hx)
  · simp only [TimeConverterData.make]
    intro h
    have hlen := buildBeatTimestamps_length (resolution : ℚ) (syncBpms bpms) 0 DEFAULT_BPM 0
    rw [h] at hlen
    exact keepLastAtPos_ne_nil _ _ _ (List.eq_nil_of_length_eq_zero hlen.symm)

/-- Closed witness for C10's conditional parts at concrete inputs. -/
theorem c10_sync_track_defaults_witness :
    bpmDefault ∈ syncBpms [⟨5, 100⟩] ∧ tsDefault ∈ syncTimeSigs [⟨3, 6, 8⟩] ∧
    syncBpms [⟨5, 100⟩] ≠ [] :=
  ⟨(c10_sync_track_defaults [⟨3, 6, 8⟩] [⟨5, 100⟩] 192).2.2.1 (by decide),
   (c10_sync_track_defaults [⟨3, 6, 8⟩] [⟨5, 100⟩] 192).2.2.2.1 (by decide),
   (c10_sync_track_defaults [⟨3, 6, 8⟩] [⟨5, 100⟩] 192).1⟩

/-! The `NoteTrack` constructor (`chart.cpp` lines 60-111). -/

/-- One note (`struct Note` of `chart.hpp`): tick position, tick length, and
the colour modelled by its enum code. -/
structure Note where
  position : ℕ
  length : ℕ
  colour : ℕ
deriving DecidableEq, Repr

/-- One star-power phrase (`struct StarPower` of `chart.hpp`). -/
structure StarPower where
  position : ℕ
  length : ℕ
deriving DecidableEq, Repr

/-- One solo (`struct Solo` of `chart.hpp`); the `end` field is called
`stop` because `end` is reserved. -/
structure Solo where
  start : ℕ
  stop : ℕ
  value : ℕ
deriving DecidableEq, Repr

/-- Wrap-around modulus of the `uint32` tick arithmetic. -/
def UINT32_MOD : ℕ := 4294967296

/-- Comparator of the note stable sort in `NoteTrack::NoteTrack`:
lexicographic on `(position, colour)` as `std::tie` compares them. -/
def noteLE (a b : Note) : Prop :=
  a.position < b.position ∨ (a.position = b.position ∧ a.colour ≤ b.colour)

instance : DecidableRel noteLE := fun a b => by unfold noteLE; infer_instance

/-- The note deduplication loop of `NoteTrack::NoteTrack`: push the previous
note whenever the next one differs in position or colour, and always push the
final previous note. -/
def dedupNotes : Note → List Note → List Note
  | prev, [] => [prev]
  | prev, p :: rest =>
    if p.position ≠ prev.position ∨ p.colour ≠ prev.colour then
      prev :: dedupNotes p rest
    else dedupNotes p rest

/-- The `m_notes` member: stable sort by `(position, colour)`, then drop
consecutive duplicates keeping the last. -/
def trackNotes (notes : List Note) : List Note :=
  match List.insertionSort noteLE notes with
  | [] => []
  | n :: rest => dedupNotes n rest

/-- Comparator of the phrase stable sort in `NoteTrack::NoteTrack`. -/
def phrasePosLE (a b : StarPower) : Prop := a.position ≤ b.position

instance : DecidableRel phrasePosLE := fun a b => Nat.decLe a.position b.position

instance : IsTotal StarPower phrasePosLE := ⟨fun a b => Nat.le_total a.position b.position⟩

instance : IsTrans StarPower phrasePosLE := ⟨fun _ _ _ h h' => Nat.le_trans h h'⟩

/-- The truncation loop of `NoteTrack::NoteTrack`: each phrase except the
last has its length clamped to the gap to the next phrase's start (a `uint32`
subtraction that cannot wrap because the list is sorted). -/
def truncatePhrases : List StarPower → List StarPower
  | [] => []
  | [p] => [p]
  | p :: q :: rest =>
    ⟨p.position, min p.length (q.position - p.position)⟩ :: truncatePhrases (q :: rest)

/-- The retention test of `NoteTrack::NoteTrack`: `std::lower_bound` the
first note at or after the phrase start and keep the phrase if that note
falls before the phrase end (`uint32` addition, hence the modulus). -/
def spPhraseKept (m_notes : List Note) (ph : StarPower) : Bool :=
  decide (m_notes.findIdx (fun n => decide (ph.position ≤ n.position)) < m_notes.length)
    && decide ((m_notes.getD (m_notes.findIdx (fun n => decide (ph.position ≤ n.position)))
        ⟨0, 0, 0⟩).position < (ph.position + ph.length) % UINT32_MOD)

/-- The `m_sp_phrases` member of `NoteTrack::NoteTrack`. -/
def trackSpPhrases (notes : List Note) (phrases : List StarPower) : List StarPower :=
  (truncatePhrases (List.insertionSort phrasePosLE phrases)).filter
    (spPhraseKept (trackNotes notes))

instance : IsTrans StarPower (fun a b => a.position + a.length ≤ b.position) :=
  ⟨fun _ b _ h h' => le_trans h (le_trans (Nat.le_add_right b.position b.length) h')⟩

theorem truncatePhrases_head_position (q : StarPower) (rest : List StarPower) :
    ∃ q' rest', truncatePhrases (q :: rest) = q' :: rest' ∧ q'.position = q.position := by
  cases rest with
  | nil => exact ⟨q, [], rfl, rfl⟩
  | cons r rest2 => exact ⟨_, _, rfl, rfl⟩

theorem truncatePhrases_chain (l : List StarPower)
    (hl : List.Chain' (fun a b => a.position ≤ b.position) l) :
    List.Chain' (fun a b => a.position + a.length ≤ b.position) (truncatePhrases l) := by
  induction l with
  | nil => simp [truncatePhrases]
  | cons p rest ih =>
    cases rest with
    | nil => simp [truncatePhrases]
    | cons q rest2 =>
      have hpq : p.position ≤ q.position := (List.chain'_cons.mp hl).1
      have htail := ih (List.chain'_cons.mp hl).2
      obtain ⟨q', rest', heq, hqpos⟩ := truncatePhrases_head_position q rest2
      simp only [truncatePhrases, heq] at htail ⊢
      refine List.chain'_cons.mpr ⟨?_, htail⟩
      simp only [hqpos]
      have : min p.length (q.position - p.position) ≤ q.position - p.position :=
        Nat.min_le_right _ _
      omega

theorem mem_dedupNotes (prev : Note) (l : List Note) (x : Note)
    (hx : x ∈ dedupNotes prev l) : x = prev ∨ x ∈ l := by
  induction l generalizing prev with
  | nil => simp [dedupNotes] at hx; exact Or.inl hx
  | cons p rest ih =>
    simp only [dedupNotes] at hx
    split at hx
    · rcases List.mem_cons.mp hx with h | h
      · exact Or.inl h
      · rcases ih p h with h' | h'
        · exact Or.inr (List.mem_cons.mpr (Or.inl h'))
        · exact Or.inr (List.mem_cons.mpr (Or.inr h'))
    · rcases ih p hx with h' | h'
      · exact Or.inr (List.mem_cons.mpr (Or.inl h'))
      · exact Or.inr (List.mem_cons.mpr (Or.inr h'))

theorem mem_of_mem_trackNotes (notes : List Note) (x : Note)
    (hx : x ∈ trackNotes notes) : x ∈ notes := by
  unfold trackNotes at hx
  rcases hs : List.insertionSort noteLE notes with _ | ⟨n, rest⟩
  · rw [hs] at hx; simp at hx
  · rw [hs] at hx
    have hmem : x = n ∨ x ∈ rest := mem_dedupNotes n rest x hx
    have : x ∈ List.insertionSort noteLE notes := by
      rw [hs]
      rcases hmem with h | h
      · exact h ▸ List.mem_cons_self _ _
      · exact List.mem_cons.mpr (Or.inr h)
    exact (List.perm_insertionSort noteLE notes).mem_iff.mp this

/-- C6: for every input to the `NoteTrack` constructor, the retained
star-power phrases are sorted by position, mutually non-overlapping (each
phrase ends at or before the next one starts), and each retained phrase
contains at least one input note in `[position, position + length)`;
phrases containing no such note are not retained. -/
theorem c6_note_track_phrase_invariants (notes : List Note) (phrases : List StarPower) :
    List.Pairwise (fun a b => a.position + a.length ≤ b.position)
        (trackSpPhrases notes phrases)
    ∧ List.Pairwise (fun a b => a.position ≤ b.position) (trackSpPhrases notes phrases)
    ∧ ∀ ph ∈ trackSpPhrases notes phrases,
        ∃ n ∈ notes, ph.position ≤ n.position ∧ n.position < ph.position + ph.length := by
  have hsorted : List.Pairwise phrasePosLE (List.insertionSort phrasePosLE phrases) :=
    List.sorted_insertionSort phrasePosLE phrases
  have hchain : List.Chain' (fun a b : StarPower => a.position ≤ b.position)
      (List.insertionSort phrasePosLE phrases) := by
    have := hsorted.chain'
    exact this
  have hover : List.Pairwise (fun a b => a.position + a.length ≤ b.position)
      (truncatePhrases (List.insertionSort phrasePosLE phrases)) :=
    List.chain'_iff_pairwise.mp (truncatePhrases_chain _ hchain)
  have hkept : List.Pairwise (fun a b => a.position + a.length ≤ b.position)
      (trackSpPhrases notes phrases) := hover.sublist (List.filter_sublist _)
  refine ⟨hkept, ?_, ?_⟩
  · exact hkept.imp (fun {a b} h => le_trans (Nat.le_add_right a.position a.length) h)
  · intro ph hph
    have hcond := List.of_mem_filter hph
    simp only [spPhraseKept, Bool.and_eq_true, decide_eq_true_eq] at hcond
    obtain ⟨hidx, hlt⟩ := hcond
    have hpred := @List.findIdx_getElem _
      (fun n => decide (ph.position ≤ n.position)) (trackNotes notes) hidx
    simp only [decide_eq_true_eq] at hpred
    refine ⟨(trackNotes notes)[(trackNotes notes).findIdx
      (fun n => decide (ph.position ≤ n.position))], ?_, hpred, ?_⟩
    · exact mem_of_mem_trackNotes notes _ (List.getElem_mem _)
    · have hmod : (ph.position + ph.length) % UINT32_MOD ≤ ph.position + ph.length :=
        Nat.mod_le _ _
      have := (List.getD_eq_getElem?_getD _ _ _) ▸ hlt
      rw [List.getElem?_eq_getElem hidx] at this
      simp at this
      omega

/-! `form_solo_vector` (`chart.cpp` lines 332-365). -/

/-- Number of distinct note positions in the closed range `[s, e]`, as the
code computes it: insert matching positions into a `std::set` and take its
size. -/
def distinctPositionsInRange (notes : List Note) (s e : ℕ) : ℕ :=
  (((notes.filter (fun n => decide (s ≤ n.position) && decide (n.position ≤ e))).map
    (fun n => n.position)).dedup).length

/-- The state machine of `form_solo_vector`: `start` and `in_solo` are the
loop variables; a type-0 event opens a solo when none is open, a type-1 event
closes the open solo and emits a `Solo` worth 100 per distinct note position
in `[start, end]` unless that count is zero (the two source conditions
`type == 0 && !in_solo` and `type == 1 && in_solo` are split on `in_solo`). -/
def soloLoop (notes : List Note) : List (ℕ × ℕ) → ℕ → Bool → List Solo
  | [], _, _ => []
  | (pos, typ) :: rest, start, false =>
    if typ = 0 then soloLoop notes rest pos true
    else soloLoop notes rest start false
  | (pos, typ) :: rest, start, true =>
    if typ = 1 then
      if distinctPositionsInRange notes start pos = 0 then
        soloLoop notes rest start false
      else
        ⟨start, pos, 100 * distinctPositionsInRange notes start pos⟩
          :: soloLoop notes rest start false
    else
      soloLoop notes rest start true

/-- `form_solo_vector(solo_events, notes)`. -/
def form_solo_vector (solo_events : List (ℕ × ℕ)) (notes : List Note) : List Solo :=
  soloLoop notes solo_events 0 false

/-- Claim-side definition, following the claim's words: pair each type-0
("solo") event with the first subsequent type-1 ("soloend") event, and for
each pair emit a `Solo` worth 100 per distinct note position inside it,
skipping empty pairs. -/
def c9ClaimSolos (notes : List Note) : List (ℕ × ℕ) → List Solo
  | [] => []
  | (pos, typ) :: rest =>
    if typ = 0 then
      match rest.find? (fun e => e.2 == 1) with
      | some e =>
        if distinctPositionsInRange notes pos e.1 = 0 then c9ClaimSolos notes rest
        else ⟨pos, e.1, 100 * distinctPositionsInRange notes pos e.1⟩ :: c9ClaimSolos notes rest
      | none => c9ClaimSolos notes rest
    else c9ClaimSolos notes rest

/-- C9 counterexample: with two "solo" events before one "soloend"
(`[(0,solo),(5,solo),(10,soloend)]`, notes at ticks 1 and 6), the code pairs
only the first solo event — the second is dropped while a solo is open — so
the output differs from pairing each solo event with its first subsequent
soloend. -/
theorem c9_counterexample :
    form_solo_vector [(0, 0), (5, 0), (10, 1)] [⟨1, 0, 0⟩, ⟨6, 0, 0⟩]
      ≠ c9ClaimSolos [⟨1, 0, 0⟩, ⟨6, 0, 0⟩] [(0, 0), (5, 0), (10, 1)] := by
  decide

mutual

/-- The amended pairing: a type-0 event opens a pair only when no solo is
open; `pairMatchEnd` then searches the first subsequent type-1 event,
ignoring further type-0 events meanwhile. -/
def pairSolos : List (ℕ × ℕ) → List (ℕ × ℕ)
  | [] => []
  | (pos, typ) :: rest => if typ = 0 then pairMatchEnd pos rest else pairSolos rest

/-- Companion of `pairSolos`: find the first subsequent type-1 event. -/
def pairMatchEnd (start : ℕ) : List (ℕ × ℕ) → List (ℕ × ℕ)
  | [] => []
  | (pos, typ) :: rest =>
    if typ = 1 then (start, pos) :: pairSolos rest else pairMatchEnd start rest

end

/-- Emission of solos from matched pairs, with the claim's counting: 100
times the number of distinct note positions `p` with `start ≤ p ≤ end`,
and no solo at all for an empty pair. -/
def solosOfPairs (notes : List Note) (pairs : List (ℕ × ℕ)) : List Solo :=
  pairs.filterMap (fun se =>
    if ((notes.map (fun n => n.position)).toFinset.filter
        (fun p => se.1 ≤ p ∧ p ≤ se.2)).card = 0 then none
    else some ⟨se.1, se.2, 100 * ((notes.map (fun n => n.position)).toFinset.filter
        (fun p => se.1 ≤ p ∧ p ≤ se.2)).card⟩)

theorem distinctPositionsInRange_eq_card (notes : List Note) (s e : ℕ) :
    distinctPositionsInRange notes s e
      = ((notes.map (fun n => n.position)).toFinset.filter
          (fun p => s ≤ p ∧ p ≤ e)).card := by
  unfold distinctPositionsInRange
  rw [← List.card_toFinset]
  congr 1
  ext p
  simp only [List.mem_toFinset, Finset.mem_filter, List.mem_map, List.mem_filter,
    Bool.and_eq_true, decide_eq_true_eq]
  constructor
  · rintro ⟨n, ⟨hn, hs, he⟩, rfl⟩
    exact ⟨⟨n, hn, rfl⟩, hs, he⟩
  · rintro ⟨⟨n, hn, rfl⟩, hs, he⟩
    exact ⟨n, ⟨hn, hs, he⟩, rfl⟩

theorem soloLoop_eq_pairs (notes : List Note) (evs : List (ℕ × ℕ)) :
    (∀ s, soloLoop notes evs s false = solosOfPairs notes (pairSolos evs))
    ∧ (∀ s, soloLoop notes evs s true = solosOfPairs notes (pairMatchEnd s evs)) := by
  induction evs with
  | nil => simp [soloLoop, pairSolos, pairMatchEnd, solosOfPairs]
  | cons ev rest ih =>
    obtain ⟨pos, typ⟩ := ev
    constructor
    · intro s
      by_cases h0 : typ = 0
      · subst h0
        simp only [soloLoop, pairSolos, if_pos rfl]
        exact ih.2 pos
      · simp only [soloLoop, pairSolos, if_neg h0]
        exact ih.1 s
    · intro s
      by_cases h1 : typ = 1
      · subst h1
        simp only [soloLoop, pairMatchEnd, reduceIte]
        rw [distinctPositionsInRange_eq_card]
        simp only [solosOfPairs, List.filterMap_cons]
        by_cases hz : ((notes.map (fun n => n.position)).toFinset.filter
            (fun p => s ≤ p ∧ p ≤ pos)).card = 0
        · rw [if_pos hz, if_pos hz]
          exact ih.1 s
        · rw [if_neg hz, if_neg hz]
          rw [ih.1 s]
          rfl
      · simp only [soloLoop, pairMatchEnd, if_neg h1]
        exact ih.2 s

/-- C9 amended: `form_solo_vector` pairs each "solo" event occurring while no
solo is open with the first subsequent "soloend" event (ignoring "solo"
events that arrive while a solo is open and "soloend" events with no open
solo), and each matched pair `[start, end]` emits a `Solo` worth 100 times
the number of distinct note positions `p` with `start ≤ p ≤ end`, with empty
pairs emitting no `Solo`. -/
theorem c9_solo_pairing_amended (solo_events : List (ℕ × ℕ)) (notes : List Note) :
    form_solo_vector solo_events notes = solosOfPairs notes (pairSolos solo_events) :=
  (soloLoop_eq_pairs notes solo_events).1 0

/-! `load_saved_settings` (`gui/json_settings.cpp` lines 39-100).  The file
system and Qt JSON parser are outside the sources: the function is modelled
as taking the parse outcome directly, `none` standing for an unreadable file
or JSON that is not an object, and `QJsonValue` by a small inductive type
(`jint` for doubles holding an integral value, which is what
`QJsonValue::toInt` accepts; everything else falls back to the given
default). -/

/-- Model of `QJsonValue` as far as `read_value`/`read_json_bool` observe
it. -/
inductive JsonValue where
  | jnull : JsonValue
  | jint : ℤ → JsonValue
  | jbool : Bool → JsonValue
  | jother : JsonValue
deriving DecidableEq, Repr

/-- Model of `QJsonObject`: a keyed mapping. -/
def JsonObject : Type := List (String × JsonValue)

/-- `QJsonObject::value`: the value stored under a key, `jnull` standing for
the Undefined value returned for a missing key. -/
def objValue (o : JsonObject) (k : String) : JsonValue :=
  ((o.find? (fun kv => kv.1 == k)).map (fun kv => kv.2)).getD JsonValue.jnull

/-- `QJsonValue::toInt(default)`. -/
def jsonToInt (v : JsonValue) (default : ℤ) : ℤ :=
  match v with
  | JsonValue.jint n => n
  | _ => default

/-- `read_value` (`gui/json_settings.cpp` lines 39-47): read the key as an
int with the default as fallback, then substitute the default if the value
leaves `[lo, hi]`. -/
def read_value (o : JsonObject) (k : String) (lo hi default : ℤ) : ℤ :=
  if lo ≤ jsonToInt (objValue o k) default ∧ jsonToInt (objValue o k) default ≤ hi then
    jsonToInt (objValue o k) default
  else default

/-- `read_json_bool` (`gui/json_settings.cpp` lines 49-53). -/
def read_json_bool (o : JsonObject) (k : String) (default : Bool) : Bool :=
  match objValue o k with
  | JsonValue.jbool b => b
  | _ => default

/-- The `JsonSettings` record. -/
structure JsonSettings where
  squeeze : ℤ
  early_whammy : ℤ
  lazy_whammy : ℤ
  whammy_delay : ℤ
  video_lag : ℤ
  is_lefty_flip : Bool
deriving DecidableEq, Repr

/-- The defaults set at the top of `load_saved_settings`. -/
def defaultSettings : JsonSettings :=
  ⟨100, 100, 0, 0, 0, false⟩

/-- `load_saved_settings`: `none` models a file that could not be opened or
whose contents are not a JSON object, in which case the defaults are
returned; otherwise each key is read with its window and default
(`MAX_LINE_EDIT_INT = 999999999`). -/
def load_saved_settings (file : Option JsonObject) : JsonSettings :=
  match file with
  | none => defaultSettings
  | some obj =>
    { squeeze := read_value obj "squeeze" 0 100 100
    , early_whammy := read_value obj "early_whammy" 0 100 100
    , lazy_whammy := read_value obj "lazy_whammy" 0 999999999 0
    , whammy_delay := read_value obj "whammy_delay" 0 999999999 0
    , video_lag := read_value obj "video_lag" (-200) 200 0
    , is_lefty_flip := read_json_bool obj "lefty_flip" false }

theorem read_value_range (o : JsonObject) (k : String) (lo hi default : ℤ)
    (hd : lo ≤ default ∧ default ≤ hi) :
    lo ≤ read_value o k lo hi default ∧ read_value o k lo hi default ≤ hi := by
  unfold read_value
  split
  · next h => exact h
  · exact hd

theorem read_value_default (o : JsonObject) (k : String) (lo hi default : ℤ)
    (h : ∀ n : ℤ, objValue o k = JsonValue.jint n → ¬(lo ≤ n ∧ n ≤ hi))
    (hd : lo ≤ default ∧ default ≤ hi) :
    read_value o k lo hi default = default := by
  unfold read_value
  cases hv : objValue o k with
  | jint n =>
    rw [if_neg]
    simp only [jsonToInt, hv]
    exact h n hv
  | jnull => simp [jsonToInt, hv, hd.1, hd.2]
  | jbool b => simp [jsonToInt, hv, hd.1, hd.2]
  | jother => simp [jsonToInt, hv, hd.1, hd.2]

/-- C8: every settings load yields `squeeze` and `early_whammy` in `[0,100]`,
`lazy_whammy ≥ 0`, `whammy_delay ≥ 0`, `video_lag` in `[-200,200]`; a key
whose value is missing, not an integer, or outside its window yields that
key's default (squeeze 100, early_whammy 100, lazy_whammy 0, whammy_delay 0,
video_lag 0, lefty_flip false); and an unreadable or non-object settings
file yields all defaults. -/
theorem c8_settings_ranges_and_defaults (file : Option JsonObject) :
    (0 ≤ (load_saved_settings file).squeeze ∧ (load_saved_settings file).squeeze ≤ 100)
    ∧ (0 ≤ (load_saved_settings file).early_whammy
        ∧ (load_saved_settings file).early_whammy ≤ 100)
    ∧ 0 ≤ (load_saved_settings file).lazy_whammy
    ∧ 0 ≤ (load_saved_settings file).whammy_delay
    ∧ (-200 ≤ (load_saved_settings file).video_lag
        ∧ (load_saved_settings file).video_lag ≤ 200)
    ∧ (file = none → load_saved_settings file = defaultSettings)
    ∧ (∀ obj, file = some obj →
        ((∀ n : ℤ, objValue obj "squeeze" = JsonValue.jint n → ¬(0 ≤ n ∧ n ≤ 100)) →
          (load_saved_settings file).squeeze = 100)
        ∧ ((∀ n : ℤ, objValue obj "early_whammy" = JsonValue.jint n → ¬(0 ≤ n ∧ n ≤ 100)) →
          (load_saved_settings file).early_whammy = 100)
        ∧ ((∀ n : ℤ, objValue obj "lazy_whammy" = JsonValue.jint n →
              ¬(0 ≤ n ∧ n ≤ 999999999)) →
          (load_saved_settings file).lazy_whammy = 0)
        ∧ ((∀ n : ℤ, objValue obj "whammy_delay" = JsonValue.jint n →
              ¬(0 ≤ n ∧ n ≤ 999999999)) →
          (load_saved_settings file).whammy_delay = 0)
        ∧ ((∀ n : ℤ, objValue obj "video_lag" = JsonValue.jint n → ¬(-200 ≤ n ∧ n ≤ 200)) →
          (load_saved_settings file).video_lag = 0)
        ∧ ((∀ b : Bool, objValue obj "lefty_flip" ≠ JsonValue.jbool b) →
          (load_saved_settings file).is_lefty_flip = false)) := by
  cases file with
  | none =>
    refine ⟨by simp [load_saved_settings, defaultSettings], ?_, ?_, ?_, ?_, fun _ => rfl, ?_⟩
    all_goals simp [load_saved_settings, defaultSettings]
  | some obj =>
    refine ⟨?_, ?_, ?_, ?_, ?_, by simp, ?_⟩
    · exact read_value_range obj "squeeze" 0 100 100 (by norm_num)
    · exact read_value_range obj "early_whammy" 0 100 100 (by norm_num)
    · exact (read_value_range obj "lazy_whammy" 0 999999999 0 (by norm_num)).1
    · exact (read_value_range obj "whammy_delay" 0 999999999 0 (by norm_num)).1
    · exact read_value_range obj "video_lag" (-200) 200 0 (by norm_num)
    · intro obj' hobj
      injection hobj with hobj
      subst hobj
      refine ⟨?_, ?_, ?_, ?_, ?_, ?_⟩
      · intro h
        exact read_value_default obj "squeeze" 0 100 100 h (by norm_num)
      · intro h
        exact read_value_default obj "early_whammy" 0 100 100 h (by norm_num)
      · intro h
        exact read_value_default obj "lazy_whammy" 0 999999999 0 h (by norm_num)
      · intro h
        exact read_value_default obj "whammy_delay" 0 999999999 0 h (by norm_num)
      · intro h
        exact read_value_default obj "video_lag" (-200) 200 0 h (by norm_num)
      · intro h
        show read_json_bool obj "lefty_flip" false = false
        unfold read_json_bool
        cases hv : objValue obj "lefty_flip" with
        | jbool b => exact absurd hv (h b)
        | jnull => rfl
        | jint n => rfl
        | jother => rfl

/-- Closed witness for C8 at a concrete (out-of-range) settings object. -/
theorem c8_settings_witness :
    (load_saved_settings (some [("squeeze", JsonValue.jint 250)])).squeeze = 100
    ∧ 0 ≤ (load_saved_settings (some [("squeeze", JsonValue.jint 250)])).squeeze :=
  ⟨((c8_settings_ranges_and_defaults
      (some [("squeeze", JsonValue.jint 250)])).2.2.2.2.2.2
      [("squeeze", JsonValue.jint 250)] rfl).1
      (by
        intro n hn
        rw [show objValue [("squeeze", JsonValue.jint 250)] "squeeze"
            = JsonValue.jint 250 from rfl] at hn
        injection hn with h
        subst h
        decide),
   (c8_settings_ranges_and_defaults (some [("squeeze", JsonValue.jint 250)])).1.1⟩

/-! Embedding of `points.cpp`.  Tick positions and lengths are the `int`
values of the later source version; they are non-negative ticks, modelled as
`ℕ` (no arithmetic in these claims approaches `int` overflow).  Doubles are
exact rationals.  The `Engine` class lives in the missing `engine.hpp`; the
record below carries exactly the virtuals `points.cpp` calls, as an opaque
parameter.  A timing-window gap may be the double infinity (no previous/next
note); that is modelled by `Option ℚ` with `none` for infinity. -/

/-- `SustainRoundingPolicy` of the engine descriptor. -/
inductive SustainRoundingPolicy where
  | RoundUp : SustainRoundingPolicy
  | RoundToNearest : SustainRoundingPolicy
deriving DecidableEq, Repr

/-- The engine descriptor interface consumed by `points.cpp`. -/
structure Engine where
  base_note_value : ℕ
  base_cymbal_value : ℕ
  max_multiplier : ℕ
  sust_points_per_beat : ℕ
  round_tick_gap : Bool
  chords_multiply_sustains : Bool
  sustain_rounding : SustainRoundingPolicy
  burst_size : ℚ
  early_timing_window : Option ℚ → Option ℚ → ℚ
  late_timing_window : Option ℚ → Option ℚ → ℚ
  has_unison_bonuses : Bool
  has_bres : Bool
  merge_uneven_sustains : Bool
  delayed_multiplier : Bool

/-- A beat/measure pair (`struct Position`). -/
structure Position where
  beat : ℚ
  measure : ℚ
deriving DecidableEq, Repr

/-- A scoring point (`struct Point`). -/
structure Point where
  position : Position
  hit_window_start : Position
  hit_window_end : Position
  fill_start : Option ℚ
  value : ℕ
  base_value : ℕ
  is_hold_point : Bool
  is_sp_granting_note : Bool
  is_unison_sp_ender : Bool
deriving DecidableEq, Repr

/-- Fallback point used by total list indexing. -/
def defaultPoint : Point :=
  ⟨⟨0, 0⟩, ⟨0, 0⟩, ⟨0, 0⟩, none, 0, 0, false, false, false⟩

/-- The conversion service used by `points.cpp` (the full `TimeConverter` of
this source version, with its measure table, lives in missing files; the
functions `points.cpp` calls are taken as an opaque record). -/
structure Converter where
  beats_to_seconds : ℚ → ℚ
  seconds_to_beats : ℚ → ℚ
  beats_to_measures : ℚ → ℚ

/-- The squeeze settings consumed by `points_from_track` (times in
seconds). -/
structure SqueezeSettings where
  squeeze : ℚ
  early_whammy : ℚ
  lazy_whammy : ℚ
  video_lag : ℚ
  whammy_delay : ℚ

/-- The guitar `NoteTrack` data as read by `points_from_track`: notes,
star-power phrases, optional big-rock-ending start tick, resolution. -/
structure GuitarTrack where
  notes : List Note
  sp_phrases : List StarPower
  bre : Option ℕ
  resolution : ℕ

/-- `std::round`: round half away from zero. -/
def cppRound (q : ℚ) : ℤ :=
  if 0 ≤ q then ⌊q + 1/2⌋ else -⌊-q + 1/2⌋

/-- `static_cast<int>` of a double: truncation toward zero. -/
def cppTrunc (q : ℚ) : ℤ :=
  if 0 ≤ q then ⌊q⌋ else -⌊-q⌋

/-- `phrase_contains_pos` (`points.cpp` lines 30-36). -/
def phrase_contains_pos (phrase : StarPower) (position : ℕ) : Bool :=
  if position < phrase.position then false
  else decide (position < phrase.position + phrase.length)

/-- `song_tick_gap` (`points.cpp` lines 38-46). -/
def song_tick_gap (resolution : ℕ) (e : Engine) : ℚ :=
  max (if e.round_tick_gap
        then ((⌊(resolution : ℚ) / (e.sust_points_per_beat : ℚ)⌋ : ℤ) : ℚ)
        else (resolution : ℚ) / (e.sust_points_per_beat : ℚ))
    1

/-- The while loop of `append_sustain_points`, with `sust_ticks` as the
recursion fuel: as long as the remaining length exceeds the burst size and
ticks remain, advance by the tick gap and emit a hold point of value 1 at
half a tick before the advanced position; when the length runs out first,
the surviving ticks are emitted as one hold point half a tick after the
current position. -/
def sustainLoop (conv : Converter) (res tick_gap burst_len : ℚ) :
    ℕ → ℚ → ℚ → List Point
  | 0, _, _ => []
  | Nat.succ n, fpos, flen =>
    if burst_len < flen then
      ⟨⟨(fpos + tick_gap - 1/2) / res,
          conv.beats_to_measures ((fpos + tick_gap - 1/2) / res)⟩,
        ⟨(fpos + tick_gap - 1/2) / res,
          conv.beats_to_measures ((fpos + tick_gap - 1/2) / res)⟩,
        ⟨(fpos + tick_gap - 1/2) / res,
          conv.beats_to_measures ((fpos + tick_gap - 1/2) / res)⟩,
        none, 1, 1, true, false, false⟩
        :: sustainLoop conv res tick_gap burst_len n (fpos + tick_gap) (flen - tick_gap)
    else
      [⟨⟨(fpos + 1/2) / res, conv.beats_to_measures ((fpos + 1/2) / res)⟩,
        ⟨(fpos + 1/2) / res, conv.beats_to_measures ((fpos + 1/2) / res)⟩,
        ⟨(fpos + 1/2) / res, conv.beats_to_measures ((fpos + 1/2) / res)⟩,
        none, Nat.succ n, Nat.succ n, true, false, false⟩]

/-- `append_sustain_points` (`points.cpp` lines 48-90). -/
def append_sustain_points (position sust_length resolution chord_size : ℕ)
    (conv : Converter) (e : Engine) : List Point :=
  let tick_gap := song_tick_gap resolution e
  let float_sust_ticks : ℚ := (sust_length : ℚ) / tick_gap
  let rounded : ℚ :=
    match e.sustain_rounding with
    | SustainRoundingPolicy.RoundUp => ((⌈float_sust_ticks⌉ : ℤ) : ℚ)
    | SustainRoundingPolicy.RoundToNearest => ((cppRound float_sust_ticks : ℤ) : ℚ)
  let sust_ticks : ℤ := cppTrunc rounded
  let tick_gap2 := if e.chords_multiply_sustains then tick_gap / (chord_size : ℚ) else tick_gap
  let sust_ticks2 : ℤ :=
    if e.chords_multiply_sustains then sust_ticks * (chord_size : ℤ) else sust_ticks
  sustainLoop conv (resolution : ℚ) tick_gap2 (e.burst_size * (resolution : ℚ))
    sust_ticks2.toNat (position : ℚ) (sust_length : ℚ)

/-- `append_note_points` (`points.cpp` lines 147-218), five-fret guitar
instantiation: no cymbal or dynamics branch, chord size is the group size.
`group` is the run of notes sharing the head's tick; `prevNote`/`nextNote`
are the notes surrounding the group in the full note list, when present. -/
def append_note_points (group : List Note) (prevNote nextNote : Option Note)
    (resolution : ℕ) (is_note_sp_ender is_unison_sp_ender : Bool)
    (conv : Converter) (squeeze : ℚ) (e : Engine) : List Point :=
  match group with
  | [] => []
  | first :: groupRest =>
    let chord_size := (first :: groupRest).length
    let beat : ℚ := (first.position : ℚ) / (resolution : ℚ)
    let note_seconds := conv.beats_to_seconds beat
    let early_gap : Option ℚ := prevNote.map (fun p =>
      note_seconds - conv.beats_to_seconds ((p.position : ℚ) / (resolution : ℚ)))
    let late_gap : Option ℚ := nextNote.map (fun q =>
      conv.beats_to_seconds ((q.position : ℚ) / (resolution : ℚ)) - note_seconds)
    let early_window := e.early_timing_window early_gap late_gap * squeeze
    let late_window := e.late_timing_window early_gap late_gap * squeeze
    let early_beat := conv.seconds_to_beats (note_seconds - early_window)
    let late_beat := conv.seconds_to_beats (note_seconds + late_window)
    let minLen := ((first :: groupRest).map (fun n => n.length)).foldl Nat.min first.length
    let maxLen := ((first :: groupRest).map (fun n => n.length)).foldl Nat.max first.length
    ⟨⟨beat, conv.beats_to_measures beat⟩,
      ⟨early_beat, conv.beats_to_measures early_beat⟩,
      ⟨late_beat, conv.beats_to_measures late_beat⟩,
      none, e.base_note_value * chord_size, e.base_note_value * chord_size,
      false, is_note_sp_ender, is_unison_sp_ender⟩
    :: (if minLen = maxLen ∨ e.merge_uneven_sustains then
          append_sustain_points first.position minLen resolution chord_size conv e
        else
          (first :: groupRest).foldr
            (fun p acc =>
              append_sustain_points first.position p.length resolution chord_size conv e ++ acc)
            [])

/-- Splitting of the note list into chord groups of equal tick position
(embedding of the `std::find_if_not` loop of `points_from_track`; grouping by
equality to the head is the same as grouping adjacent equal positions). -/
def chordGroupsAux : Note → List Note → List Note × List (List Note)
  | p, [] => ([p], [])
  | p, q :: rest =>
    let gg := chordGroupsAux q rest
    if q.position = p.position then (p :: gg.1, gg.2) else ([p], gg.1 :: gg.2)

/-- The chord groups of a note list, in order. -/
def chordGroups : List Note → List (List Note)
  | [] => []
  | p :: rest => (chordGroupsAux p rest).1 :: (chordGroupsAux p rest).2

/-- The main loop of `points_from_track` (`points.cpp` lines 354-382):
process the chord groups in order, stopping at a relevant big rock ending,
marking the last group inside the current star-power phrase as SP-granting
(and unison-ending when the engine has unison bonuses and the phrase tick is
in the unison list), and appending the head and sustain points of each
group.  `prev` is the last note before the current group and `phi` the index
of the current phrase. -/
def pointsLoop (resolution : ℕ) (sp_phrases : List StarPower) (bre : Option ℕ)
    (conv : Converter) (squeeze : ℚ) (e : Engine) (unison : List ℕ) :
    List (List Note) → Option Note → ℕ → List Point
  | [], _, _ => []
  | g :: gs, prev, phi =>
    match g with
    | [] => []
    | p :: gRest =>
      if e.has_bres ∧ ∃ b ∈ bre, b ≤ p.position then []
      else
        let nextOpt : Option Note := gs.head?.bind (fun g2 => g2.head?)
        let inPhrase : Bool :=
          decide (phi < sp_phrases.length)
            && phrase_contains_pos (sp_phrases.getD phi ⟨0, 0⟩) p.position
            && (match nextOpt with
                | none => true
                | some q => !phrase_contains_pos (sp_phrases.getD phi ⟨0, 0⟩) q.position)
        let uniE : Bool :=
          inPhrase && e.has_unison_bonuses
            && decide ((sp_phrases.getD phi ⟨0, 0⟩).position ∈ unison)
        append_note_points (p :: gRest) prev nextOpt resolution inPhrase uniE conv squeeze e
          ++ pointsLoop resolution sp_phrases bre conv squeeze e unison gs
              (some ((p :: gRest).getLast (List.cons_ne_nil p gRest)))
              (if inPhrase then phi + 1 else phi)

/-- Comparator of the point stable sort: sorted by `position.beat`. -/
def pointBeatLE (x y : Point) : Prop := x.position.beat ≤ y.position.beat

instance : DecidableRel pointBeatLE := fun x y => by unfold pointBeatLE; infer_instance

instance : IsTotal Point pointBeatLE :=
  ⟨fun x y => le_total x.position.beat y.position.beat⟩

instance : IsTrans Point pointBeatLE :=
  ⟨fun _ _ _ h h' => le_trans h h'⟩

/-- The multiplier pass of `points_from_track` (`points.cpp` lines 389-401):
`combo` counts non-hold points; each point's value is multiplied by
`min(combo / 10 + 1, max_multiplier)`, except that a non-hold point on a
`delayed_multiplier` engine uses `combo - 1`. -/
def applyMultipliers (e : Engine) : List Point → ℕ → List Point
  | [], _ => []
  | p :: ps, combo =>
    let combo' := if p.is_hold_point then combo else combo + 1
    let mult :=
      if !p.is_hold_point && e.delayed_multiplier then
        min ((combo' - 1) / 10 + 1) e.max_multiplier
      else
        min (combo' / 10 + 1) e.max_multiplier
    { p with value := p.value * mult } :: applyMultipliers e ps combo'

/-- The position shift of `shift_points_by_video_lag`. -/
def shiftPosition (conv : Converter) (video_lag : ℚ) (pos : Position) : Position :=
  ⟨conv.seconds_to_beats (conv.beats_to_seconds pos.beat + video_lag),
    conv.beats_to_measures (conv.seconds_to_beats (conv.beats_to_seconds pos.beat + video_lag))⟩

/-- `shift_points_by_video_lag` (`points.cpp` lines 281-299): every non-hold
point's position and hit windows are moved by `video_lag` along the time
axis; hold points are untouched. -/
def shift_points_by_video_lag (conv : Converter) (video_lag : ℚ)
    (points : List Point) : List Point :=
  points.map (fun p =>
    if p.is_hold_point then p
    else
      { p with
        position := shiftPosition conv video_lag p.position
        hit_window_start := shiftPosition conv video_lag p.hit_window_start
        hit_window_end := shiftPosition conv video_lag p.hit_window_end })

/-- `PointSet::points_from_track` for five-fret guitar (`points.cpp` lines
343-406): emit points per chord group, stable-sort by beat, apply the combo
multiplier walk, then shift non-hold points by the video lag. -/
def points_from_track (tr : GuitarTrack) (conv : Converter) (unison : List ℕ)
    (ss : SqueezeSettings) (e : Engine) : List Point :=
  shift_points_by_video_lag conv ss.video_lag
    (applyMultipliers e
      (List.insertionSort pointBeatLE
        (pointsLoop tr.resolution tr.sp_phrases tr.bre conv ss.squeeze e unison
          (chordGroups tr.notes) none 0))
      0)

/-- Modelled from the spec: the Clone Hero guitar engine parameters (the
engine classes live in the missing `engine.hpp`); the spec gives 25 sustain
points per beat, `RoundToNearest` rounding, a rounded tick gap, base note
value 50 (three simultaneous notes score 150 at multiplier 1), maximum
multiplier 4, and none of the delayed-multiplier/unison/BRE/merge flags. -/
def chGuitarEngine : Engine :=
  { base_note_value := 50
  , base_cymbal_value := 65
  , max_multiplier := 4
  , sust_points_per_beat := 25
  , round_tick_gap := true
  , chords_multiply_sustains := false
  , sustain_rounding := SustainRoundingPolicy.RoundToNearest
  , burst_size := 0
  , early_timing_window := fun _ _ => 7/100
  , late_timing_window := fun _ _ => 7/100
  , has_unison_bonuses := false
  , has_bres := false
  , merge_uneven_sustains := false
  , delayed_multiplier := false }

/-- The converter of the spec's default setting (resolution 192, 120 BPM,
4/4): half a second per beat, four beats per measure. -/
def defaultConverter : Converter :=
  ⟨fun b => b / 2, fun s => 2 * s, fun b => b / 4⟩

/-- A hold point whose three positions coincide, as `append_sustain_points`
emits under `defaultConverter`. -/
def holdPointAt (b : ℚ) (v : ℕ) : Point :=
  ⟨⟨b, b / 4⟩, ⟨b, b / 4⟩, ⟨b, b / 4⟩, none, v, v, true, false, false⟩

/-- C7 counterexample: the 96-tick sustain of the claim (192 resolution, 25
sustain points per beat, `RoundToNearest`, chord size 1) yields 14 hold
points, not 12: the tick gap is `max(floor(192/25), 1) = 7`, and
`round(96/7) = 14`. -/
theorem c7_sustain_count_counterexample :
    (append_sustain_points 0 96 192 1 defaultConverter chGuitarEngine).length ≠ 12 := by
  decide

/-- C7 amended: the 96-tick sustain on a 192-resolution track with 25
sustain points per beat, `RoundToNearest` rounding and a rounded tick gap
(chord size 1) yields exactly 14 hold points spaced by a tick gap of 7
(beats `(7k - 1/2)/192` for `k = 1..14`), each with value 1. -/
theorem c7_sustain_points_amended :
    append_sustain_points 0 96 192 1 defaultConverter chGuitarEngine
      = (List.range 14).map (fun k => holdPointAt ((7 * ((k : ℚ) + 1) - 1/2) / 192) 1) := by
  decide

/-- The squeeze settings with full squeeze and a +50 ms video lag. -/
def squeezeWithLag : SqueezeSettings := ⟨1, 1, 0, 1/20, 0⟩

/-- The squeeze settings with full squeeze and no video lag. -/
def squeezeNoLag : SqueezeSettings := ⟨1, 1, 0, 0, 0⟩

/-- C2 counterexample: with a +50 ms video lag at 120 BPM, the single
96-tick sustain note's head point moves from beat 0 to beat 0.1 while its
hold points stay put starting at beat 13/384 &lt; 0.1, so the point sequence of
`points_from_track` is not sorted by beat. -/
theorem c2_point_order_counterexample :
    ¬ List.Pairwise pointBeatLE
      (points_from_track ⟨[⟨0, 96, 0⟩], [], none, 192⟩ defaultConverter []
        squeezeWithLag chGuitarEngine) := by
  decide

theorem applyMultipliers_map_beat (e : Engine) (l : List Point) (c : ℕ) :
    (applyMultipliers e l c).map (fun p => p.position.beat)
      = l.map (fun p => p.position.beat) := by
  induction l generalizing c with
  | nil => rfl
  | cons p ps ih => simp [applyMultipliers, ih]

theorem shift_map_beat_zero (conv : Converter) (l : List Point)
    (hconv : ∀ b : ℚ, conv.seconds_to_beats (conv.beats_to_seconds b) = b) :
    (shift_points_by_video_lag conv 0 l).map (fun p => p.position.beat)
      = l.map (fun p => p.position.beat) := by
  unfold shift_points_by_video_lag
  rw [List.map_map]
  apply List.map_congr_left
  intro p _
  by_cases h : p.is_hold_point
  · simp [h]
  · simp [h, shiftPosition, hconv]

/-- C2 amended: whenever the video lag is zero (the converter being a
two-sided beat/seconds inverse, as proven for the table converter in C1),
the point sequence of `points_from_track` is sorted:
`points[i].position.beat ≤ points[j].position.beat` for `i &lt; j`.  With a
non-zero video lag the head of a sustain can overtake its own unshifted hold
points (see the counterexample), so the ordering only survives the shift of
step 8 when the lag vanishes.  The construction is a pure function, so the
sequence is never mutated after construction. -/
theorem c2_points_sorted_amended (tr : GuitarTrack) (conv : Converter)
    (unison : List ℕ) (ss : SqueezeSettings) (e : Engine)
    (hconv : ∀ b : ℚ, conv.seconds_to_beats (conv.beats_to_seconds b) = b)
    (hlag : ss.video_lag = 0) :
    List.Pairwise pointBeatLE (points_from_track tr conv unison ss e) := by
  unfold points_from_track
  rw [hlag]
  have hsorted : List.Pairwise pointBeatLE
      (List.insertionSort pointBeatLE
        (pointsLoop tr.resolution tr.sp_phrases tr.bre conv ss.squeeze e unison
          (chordGroups tr.notes) none 0)) :=
    List.sorted_insertionSort pointBeatLE _
  have hm := applyMultipliers_map_beat e
    (List.insertionSort pointBeatLE
      (pointsLoop tr.resolution tr.sp_phrases tr.bre conv ss.squeeze e unison
        (chordGroups tr.notes) none 0)) 0
  have hs := shift_map_beat_zero conv
    (applyMultipliers e
      (List.insertionSort pointBeatLE
        (pointsLoop tr.resolution tr.sp_phrases tr.bre conv ss.squeeze e unison
          (chordGroups tr.notes) none 0)) 0) hconv
  have key : List.Pairwise (fun a b : ℚ => a ≤ b)
      ((shift_points_by_video_lag conv 0
        (applyMultipliers e
          (List.insertionSort pointBeatLE
            (pointsLoop tr.resolution tr.sp_phrases tr.bre conv ss.squeeze e unison
              (chordGroups tr.notes) none 0)) 0)).map (fun p => p.position.beat)) := by
    rw [hs, hm]
    exact List.pairwise_map.mpr hsorted
  have key2 := List.pairwise_map.mp key
  exact key2.imp (fun h => h)

/-- Closed witness for C2 at a concrete track and the identity converter. -/
theorem c2_points_sorted_witness :
    List.Pairwise pointBeatLE
      (points_from_track ⟨[⟨0, 96, 0⟩], [], none, 192⟩ ⟨fun b => b, fun s => s, fun b => b⟩
        [] squeezeNoLag chGuitarEngine) :=
  c2_points_sorted_amended ⟨[⟨0, 96, 0⟩], [], none, 192⟩
    ⟨fun b => b, fun s => s, fun b => b⟩ [] squeezeNoLag chGuitarEngine
    (fun _ => rfl) rfl

/-! `PointSet::score_totals` and `PointSet::range_score` (`points.cpp` lines
554-565 and 661-669). -/

/-- The running-sum loop of `score_totals`. -/
def scoreTotalsAux (sum : ℕ) : List Point → List ℕ
  | [] => []
  | p :: ps => (sum + p.value) :: scoreTotalsAux (sum + p.value) ps

/-- `PointSet::score_totals`: the cumulative score vector, starting with 0
and one running total per point. -/
def score_totals (points : List Point) : List ℕ :=
  0 :: scoreTotalsAux 0 points

/-- `PointSet::range_score(start, end)`: the difference of the cumulative
totals at the two point indices (an `int` subtraction). -/
def range_score (points : List Point) (a b : ℕ) : ℤ :=
  ((score_totals points).getD b 0 : ℤ) - ((score_totals points).getD a 0 : ℤ)

theorem scoreTotalsAux_getD (l : List Point) :
    ∀ (s i : ℕ), i < l.length →
      (scoreTotalsAux s l).getD i 0 = s + ((l.take (i + 1)).map (fun p => p.value)).sum := by
  induction l with
  | nil => intro s i hi; simp at hi
  | cons p ps ih =>
    intro s i hi
    cases i with
    | zero => simp [scoreTotalsAux]
    | succ j =>
      simp only [scoreTotalsAux, List.getD_cons_succ, List.take_succ_cons, List.map_cons,
        List.sum_cons]
      rw [ih (s + p.value) j (by simpa using hi)]
      omega

theorem score_totals_getD (points : List Point) (i : ℕ) (hi : i ≤ points.length) :
    (score_totals points).getD i 0 = ((points.take i).map (fun p => p.value)).sum := by
  cases i with
  | zero => simp [score_totals]
  | succ j =>
    simp only [score_totals, List.getD_cons_succ]
    rw [scoreTotalsAux_getD points 0 j (by omega)]
    simp

/-- C3: for point indices `a ≤ b ≤ size`, `range_score(a, b)` — the
difference `cumulative_score[b] - cumulative_score[a]` of the prefix-sum
vector that starts at 0 — equals the sum of the values of points
`a, …, b-1`, and in particular `range_score(a, a) = 0`. -/
theorem c3_range_score_prefix_sums (points : List Point) (a b : ℕ)
    (hab : a ≤ b) (hb : b ≤ points.length) :
    range_score points a b
        = ((((points.drop a).take (b - a)).map (fun p => p.value)).sum : ℤ)
    ∧ range_score points a a = 0 := by
  constructor
  · unfold range_score
    rw [score_totals_getD points b hb, score_totals_getD points a (le_trans hab hb)]
    rw [show b = a + (b - a) by omega, List.take_add, List.map_append, List.sum_append]
    push_cast
    simp [List.map_map, Nat.add_sub_cancel_left, Function.comp, add_sub_cancel_left]
    rfl
  · unfold range_score
    exact sub_self _

/-- Closed witness for C3 at a concrete two-point set. -/
theorem c3_range_score_witness :
    range_score [holdPointAt 0 3, holdPointAt 1 5] 0 2
        = (((([holdPointAt 0 3, holdPointAt 1 5] : List Point).drop 0).take (2 - 0)).map
            (fun p => p.value)).sum
    ∧ range_score [holdPointAt 0 3, holdPointAt 1 5] 0 0 = 0 :=
  c3_range_score_prefix_sums [holdPointAt 0 3, holdPointAt 1 5] 0 2
    (by decide) (by decide)

/-! The multiplier pass (claim C4). -/

/-- The number of non-hold (head) points among the first `i + 1` points:
the value of `combo` after the multiplier pass has processed index `i`. -/
def headCountUpTo (l : List Point) (i : ℕ) : ℕ :=
  ((l.take (i + 1)).filter (fun p => !p.is_hold_point)).length

theorem headCountUpTo_cons_succ (p : Point) (ps : List Point) (j : ℕ) :
    headCountUpTo (p :: ps) (j + 1)
      = (if p.is_hold_point then 0 else 1) + headCountUpTo ps j := by
  unfold headCountUpTo
  rw [List.take_succ_cons, List.filter_cons]
  by_cases h : p.is_hold_point <;> simp [h] <;> omega

theorem applyMultipliers_value_getD (e : Engine) (l : List Point) :
    ∀ (c i : ℕ), i < l.length →
      ((applyMultipliers e l c).getD i defaultPoint).value
        = (l.getD i defaultPoint).value *
          (if (l.getD i defaultPoint).is_hold_point then
            min ((c + headCountUpTo l i) / 10 + 1) e.max_multiplier
          else if e.delayed_multiplier then
            min ((c + headCountUpTo l i - 1) / 10 + 1) e.max_multiplier
          else
            min ((c + headCountUpTo l i) / 10 + 1) e.max_multiplier) := by
  induction l with
  | nil => intro c i hi; simp at hi
  | cons p ps ih =>
    intro c i hi
    cases i with
    | zero =>
      by_cases hp : p.is_hold_point
      · simp [applyMultipliers, headCountUpTo, hp]
      · by_cases hd : e.delayed_multiplier <;>
          simp [applyMultipliers, headCountUpTo, hp, hd, Nat.add_sub_cancel]
    | succ j =>
      have hj : j < ps.length := by simpa using hi
      simp only [applyMultipliers, List.getD_cons_succ]
      rw [ih _ j hj, headCountUpTo_cons_succ]
      by_cases hp : p.is_hold_point <;> simp [hp, Nat.add_assoc]

/-- C4 amended: in the multiplier pass, with `combo` the number of head
(non-hold) points at indices up to and including the current one, each
point's value is multiplied by `min(combo / 10 + 1, max_multiplier)` —
except that on a `delayed_multiplier` engine a *non-hold* point uses
`combo - 1` instead, while hold points always use `combo`.  Thus sustain
points inherit their head's multiplier on ordinary engines, but on delayed
engines a hold point whose head sits right at a multiplier boundary gets
the next multiplier, not the head's. -/
theorem c4_multiplier_pass_amended (e : Engine) (l : List Point) (i : ℕ)
    (hi : i < l.length) :
    ((applyMultipliers e l 0).getD i defaultPoint).value
      = (l.getD i defaultPoint).value *
        (if (l.getD i defaultPoint).is_hold_point then
          min (headCountUpTo l i / 10 + 1) e.max_multiplier
        else if e.delayed_multiplier then
          min ((headCountUpTo l i - 1) / 10 + 1) e.max_multiplier
        else
          min (headCountUpTo l i / 10 + 1) e.max_multiplier) := by
  have h := applyMultipliers_value_getD e l 0 i hi
  simpa using h

/-- Closed witness for C4's amended theorem at a one-point list. -/
theorem c4_multiplier_pass_witness :
    ((applyMultipliers chGuitarEngine [holdPointAt 0 3] 0).getD 0 defaultPoint).value
      = (([holdPointAt 0 3] : List Point).getD 0 defaultPoint).value *
        (if (([holdPointAt 0 3] : List Point).getD 0 defaultPoint).is_hold_point then
          min (headCountUpTo [holdPointAt 0 3] 0 / 10 + 1) chGuitarEngine.max_multiplier
        else if chGuitarEngine.delayed_multiplier then
          min ((headCountUpTo [holdPointAt 0 3] 0 - 1) / 10 + 1) chGuitarEngine.max_multiplier
        else
          min (headCountUpTo [holdPointAt 0 3] 0 / 10 + 1) chGuitarEngine.max_multiplier) :=
  c4_multiplier_pass_amended chGuitarEngine [holdPointAt 0 3] 0 (by decide)

/-- Modelled from the spec: a delayed-multiplier engine (the Rock Band
engines of the engine table set `delayed_multiplier`), otherwise with the
Clone Hero guitar parameters. -/
def delayedEngine : Engine :=
  { chGuitarEngine with delayed_multiplier := true }

/-- The ten-note track of the C4 counterexample: notes every 192 ticks, the
tenth sustained for 96 ticks. -/
def c4Track : GuitarTrack :=
  ⟨[⟨0, 0, 0⟩, ⟨192, 0, 0⟩, ⟨384, 0, 0⟩, ⟨576, 0, 0⟩, ⟨768, 0, 0⟩, ⟨960, 0, 0⟩,
    ⟨1152, 0, 0⟩, ⟨1344, 0, 0⟩, ⟨1536, 0, 0⟩, ⟨1728, 96, 0⟩], [], none, 192⟩

/-- C4 counterexample: on a delayed-multiplier engine, the tenth head point
(index 9, combo 10) is multiplied by `min((10-1)/10 + 1, 4) = 1`, but the
hold points of its sustain (index 10 onwards) are multiplied by
`min(10/10 + 1, 4) = 2` — the hold point does *not* receive the same
multiplier as its head point: its value is 2, not
`base_value * head multiplier = 1 * (50 / 50) = 1`. -/
theorem c4_multiplier_pass_counterexample :
    ¬ (((points_from_track c4Track defaultConverter [] squeezeNoLag delayedEngine).getD 10
          defaultPoint).value
        = ((points_from_track c4Track defaultConverter [] squeezeNoLag delayedEngine).getD 10
            defaultPoint).base_value
          * (((points_from_track c4Track defaultConverter [] squeezeNoLag delayedEngine).getD 9
              defaultPoint).value
            / ((points_from_track c4Track defaultConverter [] squeezeNoLag delayedEngine).getD 9
                defaultPoint).base_value)) := by
  decide

/-! Structure of the chord groups (claim C5). -/

/-- The tick position of a chord group's head note. -/
def gHeadPos (g : List Note) : ℕ :=
  ((g.head?).map (fun n => n.position)).getD 0

theorem chordGroupsAux_fst_cons (p : Note) (rest : List Note) :
    ∃ t, (chordGroupsAux p rest).1 = p :: t := by
  cases rest with
  | nil => exact ⟨[], rfl⟩
  | cons q r =>
    simp only [chordGroupsAux]
    split
    · exact ⟨_, rfl⟩
    · exact ⟨[], rfl⟩

theorem gHeadPos_chordGroupsAux (p : Note) (rest : List Note) :
    gHeadPos (chordGroupsAux p rest).1 = p.position := by
  obtain ⟨t, ht⟩ := chordGroupsAux_fst_cons p rest
  rw [ht]
  rfl

theorem chordGroupsAux_join : ∀ (rest : List Note) (p : Note),
    (chordGroupsAux p rest).1 ++ ((chordGroupsAux p rest).2).flatten = p :: rest := by
  intro rest
  induction rest with
  | nil => intro p; rfl
  | cons q r ih =>
    intro p
    simp only [chordGroupsAux]
    split
    · simp [ih q]
    · simp [ih q]

theorem chordGroups_join (notes : List Note) : (chordGroups notes).flatten = notes := by
  cases notes with
  | nil => rfl
  | cons p rest =>
    simp only [chordGroups, List.flatten_cons]
    exact chordGroupsAux_join rest p

theorem chordGroupsAux_ne_nil : ∀ (rest : List Note) (p : Note) (g : List Note),
    (g = (chordGroupsAux p rest).1 ∨ g ∈ (chordGroupsAux p rest).2) → g ≠ [] := by
  intro rest
  induction rest with
  | nil =>
    intro p g hg
    rcases hg with h | h
    · subst h; simp [chordGroupsAux]
    · simp [chordGroupsAux] at h
  | cons q r ih =>
    intro p g hg
    simp only [chordGroupsAux] at hg
    split at hg
    · rcases hg with h | h
      · subst h; simp
      · exact ih q g (Or.inr h)
    · rcases hg with h | h
      · subst h; simp
      · rcases List.mem_cons.mp h with h' | h'
        · exact ih q g (Or.inl h')
        · exact ih q g (Or.inr h')

theorem chordGroups_ne_nil (notes : List Note) :
    ∀ g ∈ chordGroups notes, g ≠ [] := by
  cases notes with
  | nil => intro g hg; simp [chordGroups] at hg
  | cons p rest =>
    intro g hg
    rcases List.mem_cons.mp hg with h | h
    · exact chordGroupsAux_ne_nil rest p g (Or.inl h)
    · exact chordGroupsAux_ne_nil rest p g (Or.inr h)

theorem chordGroupsAux_member_pos : ∀ (rest : List Note) (p : Note),
    (∀ x ∈ (chordGroupsAux p rest).1, x.position = p.position)
    ∧ (∀ g ∈ (chordGroupsAux p rest).2, ∀ x ∈ g, x.position = gHeadPos g) := by
  intro rest
  induction rest with
  | nil =>
    intro p
    constructor
    · intro x hx; simp [chordGroupsAux] at hx; simp [hx]
    · intro g hg; simp [chordGroupsAux] at hg
  | cons q r ih =>
    intro p
    simp only [chordGroupsAux]
    split
    · next heq =>
      constructor
      · intro x hx
        rcases List.mem_cons.mp hx with h | h
        · simp [h]
        · rw [(ih q).1 x h, heq]
      · exact (ih q).2
    · constructor
      · intro x hx; simp at hx; simp [hx]
      · intro g hg
        rcases List.mem_cons.mp hg with h | h
        · subst h
          intro x hx
          rw [(ih q).1 x hx, gHeadPos_chordGroupsAux]
        · exact (ih q).2 g h

theorem chordGroups_member_pos (notes : List Note) :
    ∀ g ∈ chordGroups notes, ∀ x ∈ g, x.position = gHeadPos g := by
  cases notes with
  | nil => intro g hg; simp [chordGroups] at hg
  | cons p rest =>
    intro g hg
    rcases List.mem_cons.mp hg with h | h
    · subst h
      intro x hx
      rw [(chordGroupsAux_member_pos rest p).1 x hx, gHeadPos_chordGroupsAux]
    · exact (chordGroupsAux_member_pos rest p).2 g h

/-- Every note position appears as the head position of its chord group. -/
theorem note_pos_is_group_head (notes : List Note) (n : Note) (hn : n ∈ notes) :
    ∃ g ∈ chordGroups notes, gHeadPos g = n.position := by
  rw [← chordGroups_join notes] at hn
  obtain ⟨g, hg, hng⟩ := List.mem_flatten.mp hn
  exact ⟨g, hg, (chordGroups_member_pos notes g hg n hng).symm⟩

instance : IsTrans (List Note) (fun g1 g2 => gHeadPos g1 < gHeadPos g2) :=
  ⟨fun _ _ _ h h' => Nat.lt_trans h h'⟩

theorem chordGroupsAux_heads_chain : ∀ (rest : List Note) (p : Note),
    List.Chain' (fun a b : Note => a.position ≤ b.position) (p :: rest) →
    List.Chain' (fun g1 g2 => gHeadPos g1 < gHeadPos g2)
      ((chordGroupsAux p rest).1 :: (chordGroupsAux p rest).2) := by
  intro rest
  induction rest with
  | nil => intro p _; simp [chordGroupsAux]
  | cons q r ih =>
    intro p hc
    have hpq : p.position ≤ q.position := (List.chain'_cons.mp hc).1
    have hqr := (List.chain'_cons.mp hc).2
    have IH := ih q hqr
    simp only [chordGroupsAux]
    split
    · next heq =>
      rcases (List.chain'_cons'.mp IH) with ⟨hhead, htail⟩
      refine List.chain'_cons'.mpr ⟨?_, htail⟩
      intro y hy
      have := hhead y hy
      have h1 : gHeadPos (p :: (chordGroupsAux q r).1) = p.position := rfl
      rw [h1]
      rw [gHeadPos_chordGroupsAux] at this
      omega
    · next hne =>
      refine List.chain'_cons.mpr ⟨?_, IH⟩
      rw [gHeadPos_chordGroupsAux]
      show p.position < q.position
      omega

theorem chordGroups_heads_pairwise (notes : List Note)
    (hs : List.Pairwise (fun a b : Note => a.position ≤ b.position) notes) :
    List.Pairwise (fun g1 g2 => gHeadPos g1 < gHeadPos g2) (chordGroups notes) := by
  cases notes with
  | nil => simp [chordGroups]
  | cons p rest =>
    apply List.chain'_iff_pairwise.mp
    exact chordGroupsAux_heads_chain rest p hs.chain'

/-- The SP-ender test of the `points_from_track` loop, on the head of chord
group `g` with remaining groups `gs`: the phrase cursor is in range, the
current phrase contains the head's tick, and the next chord (head of the
next group) is absent or outside the phrase. -/
def codeInPhrase (sp_phrases : List StarPower) (phi : ℕ) (g : List Note)
    (gs : List (List Note)) : Bool :=
  decide (phi < sp_phrases.length)
    && phrase_contains_pos (sp_phrases.getD phi ⟨0, 0⟩) (gHeadPos g)
    && (match gs.head?.bind (fun g2 => g2.head?) with
        | none => true
        | some q => !phrase_contains_pos (sp_phrases.getD phi ⟨0, 0⟩) q.position)

/-- The per-group beat and SP flags exactly as the `points_from_track` loop
computes them (the head's beat, `is_note_sp_ender`, `is_unison_sp_ender`),
threading the phrase cursor. -/
def codeFlags (res : ℕ) (sp_phrases : List StarPower) (e : Engine) (unison : List ℕ) :
    List (List Note) → ℕ → List (ℚ × Bool × Bool)
  | [], _ => []
  | g :: gs, phi =>
    ((gHeadPos g : ℚ) / (res : ℚ), codeInPhrase sp_phrases phi g gs,
      codeInPhrase sp_phrases phi g gs && e.has_unison_bonuses
        && decide ((sp_phrases.getD phi ⟨0, 0⟩).position ∈ unison))
      :: codeFlags res sp_phrases e unison gs
          (if codeInPhrase sp_phrases phi g gs then phi + 1 else phi)

/-- Claim-side predicate, following the claim's words: chord group `g` is
the last chord whose tick position lies inside some star-power phrase — no
later group's head lies in that phrase. -/
def specIsLastInPhrase (sp_phrases : List StarPower) (g : List Note)
    (gs : List (List Note)) : Prop :=
  ∃ ph ∈ sp_phrases, phrase_contains_pos ph (gHeadPos g) = true
    ∧ ∀ g2 ∈ gs, phrase_contains_pos ph (gHeadPos g2) = false

instance (sp_phrases : List StarPower) (g : List Note) (gs : List (List Note)) :
    Decidable (specIsLastInPhrase sp_phrases g gs) := by
  unfold specIsLastInPhrase
  infer_instance

/-- Claim-side predicate: `g` ends a unison — it is the last chord of a
phrase whose start tick occurs in the unison-phrase list, on an engine with
unison bonuses. -/
def specIsUnisonEnd (e : Engine) (unison : List ℕ) (sp_phrases : List StarPower)
    (g : List Note) (gs : List (List Note)) : Prop :=
  ∃ ph ∈ sp_phrases, phrase_contains_pos ph (gHeadPos g) = true
    ∧ (∀ g2 ∈ gs, phrase_contains_pos ph (gHeadPos g2) = false)
    ∧ e.has_unison_bonuses = true ∧ ph.position ∈ unison

instance (e : Engine) (unison : List ℕ) (sp_phrases : List StarPower) (g : List Note)
    (gs : List (List Note)) : Decidable (specIsUnisonEnd e unison sp_phrases g gs) := by
  unfold specIsUnisonEnd
  infer_instance

/-- Claim-side definition, following the claim's words: a chord group's head
is SP-granting exactly when the group is the last chord whose tick position
lies inside some star-power phrase, and it additionally ends a unison when
the engine has unison bonuses and that phrase's start tick occurs in the
unison-phrase list. -/
def lastChordFlags (res : ℕ) (e : Engine) (unison : List ℕ) (sp_phrases : List StarPower) :
    List (List Note) → List (ℚ × Bool × Bool)
  | [] => []
  | g :: gs =>
    ((gHeadPos g : ℚ) / (res : ℚ),
      decide (specIsLastInPhrase sp_phrases g gs),
      decide (specIsUnisonEnd e unison sp_phrases g gs))
      :: lastChordFlags res e unison sp_phrases gs

theorem sustainLoop_all_hold (conv : Converter) (res gap burst : ℚ) :
    ∀ (t : ℕ) (fpos flen : ℚ), ∀ x ∈ sustainLoop conv res gap burst t fpos flen,
      x.is_hold_point = true := by
  intro t
  induction t with
  | zero => intro fpos flen x hx; simp [sustainLoop] at hx
  | succ n ih =>
    intro fpos flen x hx
    simp only [sustainLoop] at hx
    split at hx
    · rcases List.mem_cons.mp hx with h | h
      · subst h; rfl
      · exact ih _ _ x h
    · simp at hx; simp [hx]

theorem append_sustain_points_all_hold (position sust_length resolution chord_size : ℕ)
    (conv : Converter) (e : Engine) :
    ∀ x ∈ append_sustain_points position sust_length resolution chord_size conv e,
      x.is_hold_point = true := by
  intro x hx
  exact sustainLoop_all_hold conv _ _ _ _ _ _ x hx

theorem foldr_sustains_all_hold (l : List Note) (pos res cs : ℕ)
    (conv : Converter) (e : Engine) :
    ∀ x ∈ l.foldr (fun q acc =>
        append_sustain_points pos q.length res cs conv e ++ acc) [],
      x.is_hold_point = true := by
  induction l with
  | nil => intro x hx; simp at hx
  | cons r rs ih =>
    intro x hx
    rcases List.mem_append.mp hx with h | h
    · exact append_sustain_points_all_hold _ _ _ _ _ _ x h
    · exact ih x h

theorem filter_map_head_holds (h : Point) (t : List Point)
    (hh : h.is_hold_point = false) (ht : ∀ x ∈ t, x.is_hold_point = true) :
    ((h :: t).filter (fun x => !x.is_hold_point)).map
        (fun x => (x.position.beat, x.is_sp_granting_note, x.is_unison_sp_ender))
      = [(h.position.beat, h.is_sp_granting_note, h.is_unison_sp_ender)] := by
  rw [List.filter_cons_of_pos (by simp [hh])]
  have hnil : t.filter (fun x => !x.is_hold_point) = [] :=
    List.filter_eq_nil_iff.mpr (fun x hx => by simp [ht x hx])
  rw [hnil]
  rfl

theorem append_note_points_filter_map (p : Note) (gRest : List Note)
    (prevN nextN : Option Note) (res : ℕ) (sp uni : Bool) (conv : Converter)
    (squeeze : ℚ) (e : Engine) :
    ((append_note_points (p :: gRest) prevN nextN res sp uni conv squeeze e).filter
        (fun x => !x.is_hold_point)).map
        (fun x => (x.position.beat, x.is_sp_granting_note, x.is_unison_sp_ender))
      = [((p.position : ℚ) / (res : ℚ), sp, uni)] := by
  unfold append_note_points
  refine Eq.trans (filter_map_head_holds _ _ rfl ?_) rfl
  split
  · intro x hx
    exact append_sustain_points_all_hold _ _ _ _ _ _ x hx
  · intro x hx
    exact foldr_sustains_all_hold _ _ _ _ _ _ x hx

/-- Strict comparison of points by beat. -/
def pointBeatLT (x y : Point) : Prop := x.position.beat < y.position.beat

instance : IsAntisymm Point pointBeatLT :=
  ⟨fun _ _ h h2 => absurd h2 (lt_asymm h)⟩

theorem phrase_contains_pos_iff (ph : StarPower) (x : ℕ) :
    phrase_contains_pos ph x = true ↔ ph.position ≤ x ∧ x < ph.position + ph.length := by
  unfold phrase_contains_pos
  split
  · next h => simp only [Bool.false_eq_true, false_iff]; omega
  · next h => simp only [decide_eq_true_eq]; omega

theorem phrases_disjoint (sp_phrases : List StarPower)
    (hph : List.Pairwise (fun a b => a.position + a.length ≤ b.position) sp_phrases)
    {k k' x : ℕ} (hk : k < sp_phrases.length) (hk' : k' < sp_phrases.length) (hkk : k ≠ k')
    (h1 : phrase_contains_pos (sp_phrases[k]) x = true)
    (h2 : phrase_contains_pos (sp_phrases[k']) x = true) : False := by
  rw [phrase_contains_pos_iff] at h1 h2
  rcases Nat.lt_or_ge k k' with h | h
  · have := List.pairwise_iff_getElem.mp hph k k' hk hk' h
    omega
  · have hlt : k' < k := by omega
    have := List.pairwise_iff_getElem.mp hph k' k hk' hk hlt
    omega

theorem spGetD_eq (sp_phrases : List StarPower) (phi : ℕ) (h : phi < sp_phrases.length) :
    sp_phrases.getD phi ⟨0, 0⟩ = sp_phrases[phi] := by
  simp [List.getD_eq_getElem?_getD, List.getElem?_eq_getElem h]

theorem pointsLoop_filter_map (res : ℕ) (sp_phrases : List StarPower)
    (conv : Converter) (squeeze : ℚ) (e : Engine) (unison : List ℕ) :
    ∀ (groups : List (List Note)) (prev : Option Note) (phi : ℕ),
      (∀ g ∈ groups, g ≠ []) →
      ((pointsLoop res sp_phrases none conv squeeze e unison groups prev phi).filter
          (fun x => !x.is_hold_point)).map
          (fun x => (x.position.beat, x.is_sp_granting_note, x.is_unison_sp_ender))
        = codeFlags res sp_phrases e unison groups phi := by
  intro groups
  induction groups with
  | nil => intro prev phi _; rfl
  | cons g gs ih =>
    intro prev phi hne
    obtain ⟨p, gRest, rfl⟩ : ∃ p gRest, g = p :: gRest := by
      cases g with
      | nil => exact absurd rfl (hne [] (List.mem_cons_self _ _))
      | cons p gRest => exact ⟨p, gRest, rfl⟩
    simp only [pointsLoop]
    rw [if_neg (by simp)]
    rw [List.filter_append, List.map_append]
    rw [append_note_points_filter_map]
    rw [ih _ _ (fun g' hg' => hne g' (List.mem_cons_of_mem _ hg'))]
    rfl



theorem uni_component_eq (e : Engine) (unison : List ℕ) (sp_phrases : List StarPower)
    (g : List Note) (gs : List (List Note)) (phi : ℕ) (hphi : phi < sp_phrases.length)
    (hcont : phrase_contains_pos (sp_phrases[phi]) (gHeadPos g) = true)
    (hlastAll : ∀ g2 ∈ gs, phrase_contains_pos (sp_phrases[phi]) (gHeadPos g2) = false)
    (huniq : ∀ ph ∈ sp_phrases, phrase_contains_pos ph (gHeadPos g) = true →
      ph = sp_phrases[phi]) :
    (e.has_unison_bonuses && decide ((sp_phrases[phi]).position ∈ unison))
      = decide (specIsUnisonEnd e unison sp_phrases g gs) := by
  by_cases hhas : e.has_unison_bonuses = true
  · by_cases hmem2 : (sp_phrases[phi]).position ∈ unison
    · rw [hhas, decide_eq_true hmem2]
      exact (decide_eq_true
        ⟨sp_phrases[phi], List.getElem_mem _, hcont, hlastAll, hhas, hmem2⟩).symm
    · rw [decide_eq_false hmem2]
      simp only [Bool.and_false]
      symm
      apply decide_eq_false
      rintro ⟨ph, hmemp, hcp, _, _, hmem3⟩
      rw [huniq ph hmemp hcp] at hmem3
      exact hmem2 hmem3
  · have hhasf : e.has_unison_bonuses = false := by simpa using hhas
    rw [hhasf]
    simp only [Bool.false_and]
    symm
    apply decide_eq_false
    rintro ⟨ph, hmemp, hcp, _, hhas2, _⟩
    exact hhas hhas2

theorem uni_false_of_no_last (e : Engine) (unison : List ℕ) (sp_phrases : List StarPower)
    (g : List Note) (gs : List (List Note))
    (h : ¬ specIsLastInPhrase sp_phrases g gs) :
    ¬ specIsUnisonEnd e unison sp_phrases g gs := by
  rintro ⟨ph, hmemp, hcp, hlast, _⟩
  exact h ⟨ph, hmemp, hcp, hlast⟩

theorem codeFlags_eq_lastChordFlags (res : ℕ) (e : Engine) (unison : List ℕ)
    (sp_phrases : List StarPower)
    (hph : List.Pairwise (fun a b => a.position + a.length ≤ b.position) sp_phrases) :
    ∀ (groups : List (List Note)) (phi : ℕ),
      List.Pairwise (fun g1 g2 => gHeadPos g1 < gHeadPos g2) groups →
      (∀ g ∈ groups, g ≠ []) →
      (∀ k, phi ≤ k → ∀ (hk : k < sp_phrases.length),
        ∃ g ∈ groups, phrase_contains_pos (sp_phrases[k]) (gHeadPos g) = true) →
      (∀ k, k < phi → ∀ (hk : k < sp_phrases.length), ∀ g ∈ groups,
        phrase_contains_pos (sp_phrases[k]) (gHeadPos g) = false) →
      codeFlags res sp_phrases e unison groups phi
        = lastChordFlags res e unison sp_phrases groups := by
  intro groups
  induction groups with
  | nil => intro phi _ _ _ _; rfl
  | cons g gs ih =>
    intro phi hpair hne hi hii
    have hglt : ∀ g2 ∈ gs, gHeadPos g < gHeadPos g2 := (List.pairwise_cons.mp hpair).1
    have hpair2 := (List.pairwise_cons.mp hpair).2
    have hne2 : ∀ g2 ∈ gs, g2 ≠ [] := fun g2 h2 => hne g2 (List.mem_cons_of_mem _ h2)
    have hspec_false : (∀ (k : ℕ) (hk : k < sp_phrases.length),
        phrase_contains_pos (sp_phrases[k]) (gHeadPos g) = false) →
        ¬ specIsLastInPhrase sp_phrases g gs := by
      intro hnone
      rintro ⟨ph, hmem, hcont, _⟩
      obtain ⟨k, hk, rfl⟩ := List.mem_iff_getElem.mp hmem
      rw [hnone k hk] at hcont
      exact absurd hcont (by simp)
    by_cases hphi : phi < sp_phrases.length
    · have hget := spGetD_eq sp_phrases phi hphi
      have huniq : phrase_contains_pos (sp_phrases[phi]) (gHeadPos g) = true →
          ∀ ph ∈ sp_phrases, phrase_contains_pos ph (gHeadPos g) = true →
            ph = sp_phrases[phi] := by
        intro hc ph hmem hcp
        obtain ⟨k, hk, rfl⟩ := List.mem_iff_getElem.mp hmem
        rcases eq_or_ne k phi with heq | hne3
        · subst heq; rfl
        · exact (phrases_disjoint sp_phrases hph hk hphi hne3 hcp hc).elim
      cases gs with
      | nil =>
        obtain ⟨g0, hg0, hc0⟩ := hi phi (le_refl phi) hphi
        have hg0g : g0 = g := by simpa using hg0
        rw [hg0g] at hc0
        have hflag : codeInPhrase sp_phrases phi g [] = true := by
          unfold codeInPhrase
          rw [hget, hc0]
          simp [hphi]
        have hspec : specIsLastInPhrase sp_phrases g [] :=
          ⟨sp_phrases[phi], List.getElem_mem _, hc0, by simp⟩
        simp only [codeFlags, lastChordFlags, hflag, decide_eq_true hspec, hget,
          Bool.true_and]
        rw [uni_component_eq e unison sp_phrases g [] phi hphi hc0 (by simp) (huniq hc0)]
      | cons g1 gs2 =>
        obtain ⟨q, g1r, rfl⟩ : ∃ q g1r, g1 = q :: g1r := by
          cases g1 with
          | nil => exact absurd rfl (hne2 [] (List.mem_cons_self _ _))
          | cons q g1r => exact ⟨q, g1r, rfl⟩
        have hg1lt : gHeadPos g < q.position := by
          have := hglt (q :: g1r) (List.mem_cons_self _ _)
          simpa [gHeadPos] using this
        have hgs2 : ∀ g2 ∈ gs2, q.position < gHeadPos g2 := by
          intro g2 hg2
          have := (List.pairwise_cons.mp hpair2).1 g2 hg2
          simpa [gHeadPos] using this
        by_cases hcont : phrase_contains_pos (sp_phrases[phi]) (gHeadPos g) = true
        · by_cases hq : phrase_contains_pos (sp_phrases[phi]) q.position = true
          · have hflag : codeInPhrase sp_phrases phi g ((q :: g1r) :: gs2) = false := by
              unfold codeInPhrase
              rw [hget]
              simp [hq]
            have hnospec : ¬ specIsLastInPhrase sp_phrases g ((q :: g1r) :: gs2) := by
              rintro ⟨ph, hmemp, hcp, hlast⟩
              have hphEq := huniq hcont ph hmemp hcp
              subst hphEq
              have hlg1 := hlast (q :: g1r) (List.mem_cons_self _ _)
              rw [show gHeadPos (q :: g1r) = q.position from rfl, hq] at hlg1
              exact absurd hlg1 (by simp)
            have hnouni := uni_false_of_no_last e unison sp_phrases g _ hnospec
            simp only [codeFlags, lastChordFlags, hflag, decide_eq_false hnospec,
              decide_eq_false hnouni, Bool.false_and]
            congr 1
            apply ih phi hpair2 hne2
            · intro k hk hklen
              obtain ⟨g0, hg0mem, hc0⟩ := hi k hk hklen
              rcases List.mem_cons.mp hg0mem with heq0 | hg0gs
              · rw [heq0] at hc0
                rcases eq_or_ne k phi with heq | hne4
                · subst heq
                  exact ⟨q :: g1r, List.mem_cons_self _ _, hq⟩
                · exact (phrases_disjoint sp_phrases hph hklen hphi hne4 hc0 hcont).elim
              · exact ⟨g0, hg0gs, hc0⟩
            · intro k hk hklen g2 hg2
              exact hii k hk hklen g2 (List.mem_cons_of_mem _ hg2)
          · have hqf : phrase_contains_pos (sp_phrases[phi]) q.position = false :=
              Bool.eq_false_iff.mpr hq
            have hflag : codeInPhrase sp_phrases phi g ((q :: g1r) :: gs2) = true := by
              unfold codeInPhrase
              rw [hget]
              simp [hphi, hcont, hqf]
            have hlastAll : ∀ g2 ∈ (q :: g1r) :: gs2,
                phrase_contains_pos (sp_phrases[phi]) (gHeadPos g2) = false := by
              intro g2 hg2
              rcases List.mem_cons.mp hg2 with heq0 | hg2'
              · rw [heq0]; exact hqf
              · have hgt := hgs2 g2 hg2'
                apply Bool.eq_false_iff.mpr
                intro htrue
                have hqn := hqf
                rw [phrase_contains_pos_iff] at htrue
                have hcont' := hcont
                rw [phrase_contains_pos_iff] at hcont'
                rw [← Bool.not_eq_true, phrase_contains_pos_iff] at hqn
                omega
            have hspec : specIsLastInPhrase sp_phrases g ((q :: g1r) :: gs2) :=
              ⟨sp_phrases[phi], List.getElem_mem _, hcont, hlastAll⟩
            simp only [codeFlags, lastChordFlags, hflag, decide_eq_true hspec, hget,
              Bool.true_and]
            rw [uni_component_eq e unison sp_phrases g ((q :: g1r) :: gs2) phi hphi hcont
              hlastAll (huniq hcont)]
            congr 1
            apply ih (phi + 1) hpair2 hne2
            · intro k hk hklen
              obtain ⟨g0, hg0mem, hc0⟩ := hi k (by omega) hklen
              rcases List.mem_cons.mp hg0mem with heq0 | hg0gs
              · rw [heq0] at hc0
                exact (phrases_disjoint sp_phrases hph hklen hphi (by omega) hc0 hcont).elim
              · exact ⟨g0, hg0gs, hc0⟩
            · intro k hk hklen g2 hg2
              rcases Nat.lt_or_ge k phi with hkphi | hkphi
              · exact hii k hkphi hklen g2 (List.mem_cons_of_mem _ hg2)
              · have hkeq : k = phi := by omega
                subst hkeq
                exact hlastAll g2 hg2
        · have hcontf : phrase_contains_pos (sp_phrases[phi]) (gHeadPos g) = false :=
            Bool.eq_false_iff.mpr hcont
          have hnoK : ∀ (k : ℕ) (hk : k < sp_phrases.length),
              phrase_contains_pos (sp_phrases[k]) (gHeadPos g) = false := by
            intro k hk
            rcases Nat.lt_trichotomy k phi with hlt | heq | hgt
            · exact hii k hlt hk g (List.mem_cons_self _ _)
            · subst heq; exact hcontf
            · apply Bool.eq_false_iff.mpr
              intro htrue
              obtain ⟨g0, hg0mem, hc0⟩ := hi phi (le_refl phi) hphi
              have hord := List.pairwise_iff_getElem.mp hph phi k hphi hk hgt
              rw [phrase_contains_pos_iff] at htrue hc0
              rcases List.mem_cons.mp hg0mem with heq0 | hg0gs
              · rw [heq0] at hc0
                omega
              · have := hglt g0 hg0gs
                omega
          have hnospec := hspec_false hnoK
          have hnouni := uni_false_of_no_last e unison sp_phrases g _ hnospec
          have hflag : codeInPhrase sp_phrases phi g ((q :: g1r) :: gs2) = false := by
            unfold codeInPhrase
            rw [hget, hcontf]
            simp
          simp only [codeFlags, lastChordFlags, hflag, decide_eq_false hnospec,
            decide_eq_false hnouni, Bool.false_and]
          congr 1
          apply ih phi hpair2 hne2
          · intro k hk hklen
            obtain ⟨g0, hg0mem, hc0⟩ := hi k hk hklen
            rcases List.mem_cons.mp hg0mem with heq0 | hg0gs
            · rw [heq0] at hc0
              rw [hnoK k hklen] at hc0
              exact absurd hc0 (by simp)
            · exact ⟨g0, hg0gs, hc0⟩
          · intro k hk hklen g2 hg2
            exact hii k hk hklen g2 (List.mem_cons_of_mem _ hg2)
    · have hnone : ∀ (k : ℕ) (hk : k < sp_phrases.length),
          phrase_contains_pos (sp_phrases[k]) (gHeadPos g) = false := fun k hk =>
        hii k (by omega) hk g (List.mem_cons_self _ _)
      have hnospec := hspec_false hnone
      have hnouni := uni_false_of_no_last e unison sp_phrases g _ hnospec
      have hflag : codeInPhrase sp_phrases phi g gs = false := by
        unfold codeInPhrase
        simp [hphi]
      simp only [codeFlags, lastChordFlags, hflag, decide_eq_false hnospec,
        decide_eq_false hnouni, Bool.false_and]
      congr 1
      exact ih phi hpair2 hne2
        (fun k hk hklen => absurd hklen (by omega))
        (fun k hk hklen g2 hg2 => hii k (by omega) hklen g2 (List.mem_cons_of_mem _ hg2))



theorem applyMultipliers_filter_map (e : Engine) :
    ∀ (l : List Point) (c : ℕ),
      ((applyMultipliers e l c).filter (fun x => !x.is_hold_point)).map
          (fun x => (x.position.beat, x.is_sp_granting_note, x.is_unison_sp_ender))
        = (l.filter (fun x => !x.is_hold_point)).map
            (fun x => (x.position.beat, x.is_sp_granting_note, x.is_unison_sp_ender)) := by
  intro l
  induction l with
  | nil => intro c; rfl
  | cons p ps ih =>
    intro c
    simp only [applyMultipliers]
    by_cases h : p.is_hold_point = true
    · rw [List.filter_cons_of_neg (by simp [h]), List.filter_cons_of_neg (by simp [h])]
      exact ih _
    · rw [List.filter_cons_of_pos (by simp [h]), List.filter_cons_of_pos (by simp [h])]
      simp only [List.map_cons]
      rw [ih _]

theorem shift_filter_map (conv : Converter) (lag : ℚ) :
    ∀ l : List Point,
      ((shift_points_by_video_lag conv lag l).filter (fun x => !x.is_hold_point)).map
          (fun x => (x.position.beat, x.is_sp_granting_note, x.is_unison_sp_ender))
        = ((l.filter (fun x => !x.is_hold_point)).map
            (fun x => (x.position.beat, x.is_sp_granting_note, x.is_unison_sp_ender))).map
            (fun t => (conv.seconds_to_beats (conv.beats_to_seconds t.1 + lag), t.2)) := by
  intro l
  induction l with
  | nil => rfl
  | cons p ps ih =>
    simp only [shift_points_by_video_lag, List.map_cons] at ih ⊢
    by_cases h : p.is_hold_point = true
    · rw [if_pos h]
      rw [List.filter_cons_of_neg (by simp [h]), List.filter_cons_of_neg (by simp [h])]
      exact ih
    · rw [if_neg h]
      rw [List.filter_cons_of_pos (by simp [h]), List.filter_cons_of_pos (by simp [h])]
      simp only [List.map_cons]
      exact List.cons_eq_cons.mpr ⟨rfl, ih⟩

theorem insertionSort_filter_nonhold (l : List Point)
    (hstrict : List.Pairwise pointBeatLT (l.filter (fun x => !x.is_hold_point))) :
    (List.insertionSort pointBeatLE l).filter (fun x => !x.is_hold_point)
      = l.filter (fun x => !x.is_hold_point) := by
  have hperm : ((List.insertionSort pointBeatLE l).filter (fun x => !x.is_hold_point)).Perm
      (l.filter (fun x => !x.is_hold_point)) :=
    (List.perm_insertionSort pointBeatLE l).filter _
  have hsorted : List.Pairwise pointBeatLE
      ((List.insertionSort pointBeatLE l).filter (fun x => !x.is_hold_point)) :=
    List.Pairwise.sublist (List.filter_sublist _) (List.sorted_insertionSort pointBeatLE l)
  have hstrict2 : List.Pairwise (fun x y : Point => x.position.beat < y.position.beat)
      (l.filter (fun x => !x.is_hold_point)) := hstrict
  have hmapstrict : List.Pairwise (fun a b : ℚ => a < b)
      ((l.filter (fun x => !x.is_hold_point)).map (fun p => p.position.beat)) :=
    List.pairwise_map.mpr hstrict2
  have hmnodup : ((l.filter (fun x => !x.is_hold_point)).map
      (fun p => p.position.beat)).Nodup := hmapstrict.imp ne_of_lt
  have hsnodup : (((List.insertionSort pointBeatLE l).filter
      (fun x => !x.is_hold_point)).map (fun p => p.position.beat)).Nodup :=
    ((hperm.map (fun p => p.position.beat)).symm).nodup hmnodup
  have hsne : List.Pairwise (fun x y : Point => x.position.beat ≠ y.position.beat)
      ((List.insertionSort pointBeatLE l).filter (fun x => !x.is_hold_point)) :=
    List.pairwise_map.mp hsnodup
  have hsstrict : List.Pairwise pointBeatLT
      ((List.insertionSort pointBeatLE l).filter (fun x => !x.is_hold_point)) :=
    (hsorted.and hsne).imp (fun h => lt_of_le_of_ne h.1 h.2)
  exact List.eq_of_perm_of_sorted hperm hsstrict hstrict

theorem codeFlags_map_fst (res : ℕ) (sp_phrases : List StarPower) (e : Engine)
    (unison : List ℕ) : ∀ (groups : List (List Note)) (phi : ℕ),
    (codeFlags res sp_phrases e unison groups phi).map Prod.fst
      = groups.map (fun g => (gHeadPos g : ℚ) / (res : ℚ)) := by
  intro groups
  induction groups with
  | nil => intro phi; rfl
  | cons g gs ih => intro phi; simp only [codeFlags, List.map_cons, ih]

/-- C5: for every guitar track satisfying the `NoteTrack` invariants (notes
sorted by position, star-power phrases sorted and non-overlapping, every
phrase containing a note — the invariants of C6 — with a positive resolution
and no big rock ending), the non-hold points of `points_from_track`, in
order, are exactly the chord-group heads, each sitting at the video-lag
shift of its head's beat, and the point is `is_sp_granting_note` exactly
when its chord is the last chord whose tick position lies inside some
star-power phrase (`phrase start ≤ position < phrase start + length`), and
`is_unison_sp_ender` exactly when additionally the engine has unison bonuses
and that phrase's start tick occurs in the unison-phrase list.  In
particular at most one point is marked per phrase. -/
theorem c5_sp_granting_flags (tr : GuitarTrack) (conv : Converter) (unison : List ℕ)
    (ss : SqueezeSettings) (e : Engine)
    (hnotes : List.Pairwise (fun a b : Note => a.position ≤ b.position) tr.notes)
    (hph : List.Pairwise (fun a b : StarPower => a.position + a.length ≤ b.position)
      tr.sp_phrases)
    (hcover : ∀ ph ∈ tr.sp_phrases, ∃ n ∈ tr.notes, phrase_contains_pos ph n.position = true)
    (hres : 0 < tr.resolution) (hbre : tr.bre = none) :
    ((points_from_track tr conv unison ss e).filter (fun p => !p.is_hold_point)).map
        (fun p => (p.position.beat, p.is_sp_granting_note, p.is_unison_sp_ender))
      = (lastChordFlags tr.resolution e unison tr.sp_phrases (chordGroups tr.notes)).map
          (fun t => (conv.seconds_to_beats (conv.beats_to_seconds t.1 + ss.video_lag),
            t.2)) := by
  unfold points_from_track
  rw [hbre]
  have hne : ∀ g ∈ chordGroups tr.notes, g ≠ [] := chordGroups_ne_nil tr.notes
  have hraw : ((pointsLoop tr.resolution tr.sp_phrases none conv ss.squeeze e unison
        (chordGroups tr.notes) none 0).filter (fun x => !x.is_hold_point)).map
        (fun x => (x.position.beat, x.is_sp_granting_note, x.is_unison_sp_ender))
      = codeFlags tr.resolution tr.sp_phrases e unison (chordGroups tr.notes) 0 :=
    pointsLoop_filter_map _ _ _ _ _ _ (chordGroups tr.notes) none 0 hne
  have hheads : List.Pairwise (fun g1 g2 => gHeadPos g1 < gHeadPos g2)
      (chordGroups tr.notes) := chordGroups_heads_pairwise tr.notes hnotes
  have hfststrict : List.Pairwise (fun a b : ℚ => a < b)
      ((codeFlags tr.resolution tr.sp_phrases e unison (chordGroups tr.notes) 0).map
        Prod.fst) := by
    rw [codeFlags_map_fst]
    refine List.pairwise_map.mpr (hheads.imp ?_)
    intro g1 g2 h
    have h0 : (0 : ℚ) < (tr.resolution : ℚ) := by exact_mod_cast hres
    exact (div_lt_div_iff_of_pos_right h0).mpr (by exact_mod_cast h)
  have hrawstrict : List.Pairwise pointBeatLT
      ((pointsLoop tr.resolution tr.sp_phrases none conv ss.squeeze e unison
        (chordGroups tr.notes) none 0).filter (fun x => !x.is_hold_point)) := by
    rw [← hraw, List.map_map] at hfststrict
    have h2 := List.pairwise_map.mp hfststrict
    exact h2.imp (fun h => h)
  rw [shift_filter_map, applyMultipliers_filter_map,
    insertionSort_filter_nonhold _ hrawstrict, hraw]
  congr 1
  refine codeFlags_eq_lastChordFlags tr.resolution e unison tr.sp_phrases hph
    (chordGroups tr.notes) 0 hheads hne ?_ ?_
  · intro k hk hklen
    obtain ⟨n, hnmem, hcontains⟩ := hcover _ (List.getElem_mem hklen)
    obtain ⟨g, hgmem, hgpos⟩ := note_pos_is_group_head tr.notes n hnmem
    exact ⟨g, hgmem, by rw [hgpos]; exact hcontains⟩
  · intro k hk
    exact absurd hk (Nat.not_lt_zero k)

/-- A two-chord track with one sustain note and one star-power phrase, for
the C5 witness. -/
def c5Track : GuitarTrack := ⟨[⟨0, 0, 0⟩, ⟨192, 96, 0⟩], [⟨0, 100⟩], none, 192⟩

/-- An identity-like converter for the C5 witness. -/
def c5Conv : Converter := ⟨fun b => b, fun s => s, fun b => b⟩

theorem c5_sp_granting_flags_witness :
    (List.Pairwise (fun a b : Note => a.position ≤ b.position) c5Track.notes
      ∧ List.Pairwise (fun a b : StarPower => a.position + a.length ≤ b.position)
          c5Track.sp_phrases
      ∧ (∀ ph ∈ c5Track.sp_phrases, ∃ n ∈ c5Track.notes,
          phrase_contains_pos ph n.position = true)
      ∧ 0 < c5Track.resolution ∧ c5Track.bre = none)
    ∧ ((points_from_track c5Track c5Conv [] squeezeNoLag chGuitarEngine).filter
          (fun p => !p.is_hold_point)).map
          (fun p => (p.position.beat, p.is_sp_granting_note, p.is_unison_sp_ender))
        = (lastChordFlags c5Track.resolution chGuitarEngine [] c5Track.sp_phrases
            (chordGroups c5Track.notes)).map
            (fun t => (c5Conv.seconds_to_beats
              (c5Conv.beats_to_seconds t.1 + squeezeNoLag.video_lag), t.2)) :=
  ⟨⟨by decide, by decide, by decide, by decide, rfl⟩,
    c5_sp_granting_flags c5Track c5Conv [] squeezeNoLag chGuitarEngine
      (by decide) (by decide) (by decide) (by decide) rfl⟩

end CHOpt
